import Mathlib

/-! # Definitions -/

/-!
Verification of the micrograd.py scalar automatic-differentiation engine.

The repository holds two near-identical engine classes (`Value` in
src/engine/value.py and `Node` in src/engine/node.py), a graphviz
visualizer (src/visualize.py) and a thin entry point.  Python objects are
mutable and compared by identity, so the embedding is an arena: a graph
state is the list of nodes created so far, a node is referenced by its
index (its creation rank), and every operator appends a fresh node.  This
matches the source exactly because nodes are only ever created (never
edited except for their `grad` field) and every operand of a new node was
created strictly earlier.

Numeric model: Python floats are modelled as rationals (ℚ); rounding is
out of scope for the claims below.  Exponents of `__pow__` are modelled as
integers (every exponent used by the library's own derived operators is an
integer).  Python's `float.__pow__` raises `ZeroDivisionError` on a zero
base and a negative exponent, so the embedding of `**` returns an
`Except`, and graph construction and the backward pass are fallible
exactly where the Python code can raise.  The sigmoid forward value
`1 / (1 + exp(-x))` is irrational, so the embedding is parametric in a
function `sig : ℚ → ℚ` standing for that float computation; no claim
depends on its concrete values.
-/

/-- The operation tag stored on a node (`OperationEnum`, plus the exponent
string a `POWER` node carries in its `_operation` tuple, modelled as the
exponent itself).  `sub` and `div` exist in the source enum but are never
attached to a node by the engine. -/
inductive Op where
  | add
  | sub
  | mul
  | div
  | pow (e : Int)
  | sigmoid
  | relu

deriving DecidableEq

/-- The content of the `_backward` closure a node carries: which rule it
applies and which already-existing nodes it captured.  A binary closure
keeps both captured operands even when they are the same object (for
`a + a` the closure adds into `a.grad` twice although the parent set has
one element). -/
inductive BackClos where
  | noop
  | addc (l r : Nat)
  | mulc (l r : Nat)
  | powc (a : Nat) (e : Int)
  | sigc (a : Nat)
  | reluc (a : Nat)

deriving DecidableEq

/-- One node of the computational graph: `data`, `grad`, the deduplicated
parent set `_previous` (kept as a duplicate-free list), the `_operation`
tag, the `_label`, and the `_backward` closure. -/
structure NodeData where
  data : ℚ
  grad : ℚ
  prev : List Nat
  op : Option Op
  label : Option String
  clos : BackClos

deriving DecidableEq

instance : Inhabited NodeData :=
  ⟨⟨0, 0, [], none, none, BackClos.noop⟩⟩

/-- The arena: node `i` is the `i`-th object created. -/
abbrev GraphState := List NodeData

/-- `data` of node `i` (0 for an index that names no node). -/
def dataOf (g : GraphState) (i : Nat) : ℚ := (g.getD i default).data

/-- `grad` of node `i` (0 for an index that names no node). -/
def gradOf (g : GraphState) (i : Nat) : ℚ := (g.getD i default).grad

/-- `_previous` of node `i`. -/
def prevOf (g : GraphState) (i : Nat) : List Nat := (g.getD i default).prev

/-- `_backward` closure of node `i`. -/
def closOf (g : GraphState) (i : Nat) : BackClos := (g.getD i default).clos

/-- The nodes a closure captured, in capture order, duplicates kept. -/
def closOps : BackClos → List Nat
  | BackClos.noop => []
  | BackClos.addc l r => [l, r]
  | BackClos.mulc l r => [l, r]
  | BackClos.powc a _ => [a]
  | BackClos.sigc a => [a]
  | BackClos.reluc a => [a]

/-- `set((self, other))`: the parent tuple as Python's set constructor
dedupes it. -/
def pairSet (l r : Nat) : List Nat := if l = r then [l] else [l, r]

/-- Python's `x ** n` on a float base and an integer exponent: raises
`ZeroDivisionError` on a zero base and negative exponent, otherwise the
exact power. -/
def pyPowNum (x : ℚ) (n : Int) : Except String ℚ :=
  if x = 0 ∧ n < 0 then
    Except.error "ZeroDivisionError: 0.0 cannot be raised to a negative power"
  else Except.ok (x ^ n)

/-- An operand of a dunder operator: an existing node, or a bare number
that the operator will coerce. -/
inductive Operand where
  | node (i : Nat)
  | num (q : ℚ)

deriving DecidableEq

/-- One call of the public surface, referencing operands by creation rank. -/
inductive Instr where
  | leafI (q : ℚ) (lab : Option String)
  | addI (a : Nat) (o : Operand)
  | raddI (q : ℚ) (a : Nat)
  | subI (a : Nat) (o : Operand)
  | rsubI (q : ℚ) (a : Nat)
  | mulI (a : Nat) (o : Operand)
  | rmulI (q : ℚ) (a : Nat)
  | divI (a : Nat) (o : Operand)
  | rdivI (q : ℚ) (a : Nat)
  | negI (a : Nat)
  | powI (a : Nat) (e : Int)
  | sigmoidI (a : Nat)
  | reluI (a : Nat)
  | backwardI (a : Nat)

deriving DecidableEq

/-- Whether an operand references only existing nodes. -/
def operandOk (g : GraphState) : Operand → Bool
  | Operand.node i => decide (i < g.length)
  | Operand.num _ => true

/-- DFS state of `backward.build_topo`: the visited set (kept as a list,
only membership is used) and the post-order sequence. -/
structure TopoSt where
  visited : List Nat
  topo : List Nat

deriving DecidableEq

namespace value

/-- Append a freshly constructed node; returns the new state and the new
node's index. -/
def mkNode (g : GraphState) (nd : NodeData) : GraphState × Nat :=
  (g ++ [nd], g.length)

/-- `Value(data, label=...)`: a leaf. -/
def leaf (g : GraphState) (q : ℚ) (lab : Option String) : GraphState × Nat :=
  mkNode g ⟨q, 0, [], none, lab, BackClos.noop⟩

/-- Core of `Value.__add__` once both operands are nodes. -/
def addVV (g : GraphState) (a b : Nat) : GraphState × Nat :=
  mkNode g ⟨dataOf g a + dataOf g b, 0, pairSet a b, some Op.add, none, BackClos.addc a b⟩

/-- Core of `Value.__mul__` once both operands are nodes. -/
def mulVV (g : GraphState) (a b : Nat) : GraphState × Nat :=
  mkNode g ⟨dataOf g a * dataOf g b, 0, pairSet a b, some Op.mul, none, BackClos.mulc a b⟩

/-- `Value.__pow__`: `self.data ** other` can raise on a zero base. -/
def powVV (g : GraphState) (a : Nat) (e : Int) : Except String (GraphState × Nat) :=
  (pyPowNum (dataOf g a) e).map fun d =>
    mkNode g ⟨d, 0, [a], some (Op.pow e), none, BackClos.powc a e⟩

/-- `Value.sigmoid`; `sig` stands for `fun x => 1 / (1 + exp (-x))`. -/
def sigmoidVV (sig : ℚ → ℚ) (g : GraphState) (a : Nat) : GraphState × Nat :=
  mkNode g ⟨sig (dataOf g a), 0, [a], some Op.sigmoid, none, BackClos.sigc a⟩

/-- `Value.relu`: `0 if self.data <= 0 else self.data`. -/
def reluVV (g : GraphState) (a : Nat) : GraphState × Nat :=
  mkNode g ⟨if dataOf g a ≤ 0 then 0 else dataOf g a, 0, [a], some Op.relu, none,
    BackClos.reluc a⟩

/-- `other if isinstance(other, Value) else Value(other)`. -/
def coe0 (g : GraphState) : Operand → GraphState × Nat
  | Operand.node i => (g, i)
  | Operand.num q => leaf g q none

/-- `Value.__add__` (and `__radd__`, which is `self + other`). -/
def pyAdd (g : GraphState) (a : Nat) (o : Operand) : GraphState × Nat :=
  let p := coe0 g o
  addVV p.1 a p.2

/-- `Value.__mul__` (and `__rmul__`, which is `self * other`). -/
def pyMul (g : GraphState) (a : Nat) (o : Operand) : GraphState × Nat :=
  let p := coe0 g o
  mulVV p.1 a p.2

/-- `Value.__neg__`: `self * -1`. -/
def pyNeg (g : GraphState) (a : Nat) : GraphState × Nat :=
  pyMul g a (Operand.num (-1))

/-- `Value.__sub__`: `self + (-other)`.  When `other` is a bare number,
Python negates the number itself and `__add__` coerces `-other` into one
fresh leaf; no multiply node is created. -/
def pySub (g : GraphState) (a : Nat) : Operand → GraphState × Nat
  | Operand.node b =>
      let p := pyNeg g b
      pyAdd p.1 a (Operand.node p.2)
  | Operand.num q => pyAdd g a (Operand.num (-q))

/-- `Value.__rsub__` with a bare number first operand: `other + (-self)`
resolves to `(-self).__radd__(other)`. -/
def pyRSub (g : GraphState) (q : ℚ) (a : Nat) : GraphState × Nat :=
  let p := pyNeg g a
  pyAdd p.1 p.2 (Operand.num q)

/-- `Value.__truediv__`: `self * other ** -1`.  When `other` is a bare
number, Python computes `other ** -1` as a plain number (raising on 0),
and `__mul__` coerces it into one fresh leaf; no power node is created. -/
def pyDiv (g : GraphState) (a : Nat) : Operand → Except String (GraphState × Nat)
  | Operand.node b =>
      (powVV g b (-1)).map fun p => mulVV p.1 a p.2
  | Operand.num q =>
      (pyPowNum q (-1)).map fun r => pyMul g a (Operand.num r)

/-- `Value.__rtruediv__` with a bare number first operand:
`other * self ** -1` resolves to `(self ** -1).__rmul__(other)`. -/
def pyRDiv (g : GraphState) (q : ℚ) (a : Nat) : Except String (GraphState × Nat) :=
  (powVV g a (-1)).map fun p => pyMul p.1 p.2 (Operand.num q)

/-- Overwrite `grad` of node `i` (identity on an index that names no node,
which the guarded interpreter never produces). -/
def setGrad (g : GraphState) (i : Nat) (q : ℚ) : GraphState :=
  g.set i { g.getD i default with grad := q }

/-- `grad +=`: accumulate into node `i`. -/
def addGrad (g : GraphState) (i : Nat) (q : ℚ) : GraphState :=
  setGrad g i (gradOf g i + q)

/-- Run node `i`'s `_backward` closure, statement by statement.  Sigmoid
overwrites its parent's gradient (`=`); every other rule accumulates
(`+=`).  The power rule evaluates `self.data ** (other - 1)` first, which
can raise. -/
def propagate (g : GraphState) (i : Nat) : Except String GraphState :=
  match closOf g i with
  | BackClos.noop => Except.ok g
  | BackClos.addc l r =>
      let g1 := addGrad g l (gradOf g i)
      Except.ok (addGrad g1 r (gradOf g1 i))
  | BackClos.mulc l r =>
      let g1 := addGrad g l (dataOf g r * gradOf g i)
      Except.ok (addGrad g1 r (dataOf g1 l * gradOf g1 i))
  | BackClos.powc a e =>
      (pyPowNum (dataOf g a) (e - 1)).map fun p =>
        addGrad g a ((e : ℚ) * p * gradOf g i)
  | BackClos.sigc a =>
      Except.ok (setGrad g a (dataOf g i * (1 - dataOf g i) * gradOf g i))
  | BackClos.reluc a =>
      Except.ok (addGrad g a ((if 0 < dataOf g i then 1 else 0) * gradOf g i))

/-- `build_topo(v)`.  The extra `fuel` only bounds the recursion depth so
the definition is structural; node indices strictly decrease along parent
edges in every state the interpreter produces, so `fuel = v + 1` never
runs out (`visit_spec` below is proved about exactly that call). -/
def visit (g : GraphState) : Nat → Nat → TopoSt → TopoSt
  | 0, _, st => st
  | fuel + 1, v, st =>
      if v ∈ st.visited then st
      else
        let st1 : TopoSt := ⟨v :: st.visited, st.topo⟩
        let st2 := (prevOf g v).foldl (fun s p => visit g fuel p s) st1
        ⟨st2.visited, st2.topo ++ [v]⟩

/-- The discovery sequence `topo` that `Value.backward` builds. -/
def buildTopo (g : GraphState) (root : Nat) : List Nat :=
  (visit g (root + 1) root ⟨[], []⟩).topo

/-- `Value.backward`: build the sequence, seed `self.grad = 1.0`, then run
the closures in reverse order. -/
def backward (g : GraphState) (root : Nat) : Except String GraphState :=
  (buildTopo g root).reverse.foldlM propagate (setGrad g root 1)

/-- Interpret one public call, rejecting operand indices that name no node
(Python programs hold object references, so such an instruction
corresponds to no Python program). -/
def execInstr (sig : ℚ → ℚ) (g : GraphState) : Instr → Except String GraphState
  | Instr.leafI q lab => Except.ok (leaf g q lab).1
  | Instr.addI a o =>
      if a < g.length ∧ operandOk g o then Except.ok (pyAdd g a o).1
      else Except.error "invalid node id"
  | Instr.raddI q a =>
      if a < g.length then Except.ok (pyAdd g a (Operand.num q)).1
      else Except.error "invalid node id"
  | Instr.subI a o =>
      if a < g.length ∧ operandOk g o then Except.ok (pySub g a o).1
      else Except.error "invalid node id"
  | Instr.rsubI q a =>
      if a < g.length then Except.ok (pyRSub g q a).1
      else Except.error "invalid node id"
  | Instr.mulI a o =>
      if a < g.length ∧ operandOk g o then Except.ok (pyMul g a o).1
      else Except.error "invalid node id"
  | Instr.rmulI q a =>
      if a < g.length then Except.ok (pyMul g a (Operand.num q)).1
      else Except.error "invalid node id"
  | Instr.divI a o =>
      if a < g.length ∧ operandOk g o then (pyDiv g a o).map Prod.fst
      else Except.error "invalid node id"
  | Instr.rdivI q a =>
      if a < g.length then (pyRDiv g q a).map Prod.fst
      else Except.error "invalid node id"
  | Instr.negI a =>
      if a < g.length then Except.ok (pyNeg g a).1
      else Except.error "invalid node id"
  | Instr.powI a e =>
      if a < g.length then (powVV g a e).map Prod.fst
      else Except.error "invalid node id"
  | Instr.sigmoidI a =>
      if a < g.length then Except.ok (sigmoidVV sig g a).1
      else Except.error "invalid node id"
  | Instr.reluI a =>
      if a < g.length then Except.ok (reluVV g a).1
      else Except.error "invalid node id"
  | Instr.backwardI a =>
      if a < g.length then backward g a
      else Except.error "invalid node id"

/-- Run a sequence of public calls from the empty arena. -/
def exec (sig : ℚ → ℚ) (p : List Instr) : Except String GraphState :=
  p.foldlM (execInstr sig) []

end value

/-! ## Shape equality: everything but the gradients -/

/-- `h` has the same nodes as `g` (same count, data, parents, closures);
only gradients may differ.  This is what a backward pass preserves. -/
def sameShape (g h : GraphState) : Prop :=
  h.length = g.length ∧
    ∀ i, dataOf h i = dataOf g i ∧ prevOf h i = prevOf g i ∧ closOf h i = closOf g i

/-! ## Well-formedness: parents strictly precede their node -/

/-- Every state the interpreter produces satisfies this: each node's
parents were created strictly earlier, and the nodes captured by its
closure are among its parents. -/
def WF (g : GraphState) : Prop :=
  ∀ i, i < g.length →
    (∀ p ∈ prevOf g i, p < i) ∧ ∀ p ∈ closOps (closOf g i), p ∈ prevOf g i

/-! ## The interpreter only produces well-formed states -/

/-- A freshly produced node: the result is well formed, the returned index
is in range, and the arena only grew. -/
def opOut (g : GraphState) (pr : GraphState × Nat) : Prop :=
  WF pr.1 ∧ pr.2 < pr.1.length ∧ g.length ≤ pr.1.length

/-! ## The discovery sequence: post-order DFS -/

/-- Read back-to-front friendly form of the topological-order property:
every element's parents occur in the remainder of the list.  The reverse
of the discovery sequence satisfies this. -/
def childFirst (g : GraphState) : List Nat → Prop
  | [] => True
  | v :: rest => (∀ p ∈ prevOf g v, p ∈ rest) ∧ childFirst g rest

/-- Invariant of `build_topo`, with `A` the set of nodes whose visit is in
progress (on the DFS call stack): the visited set is exactly the emitted
sequence plus the in-progress nodes; the sequence has no duplicates, no
in-progress node, and its reverse is child-first. -/
def topoInv (g : GraphState) (st : TopoSt) (A : List Nat) : Prop :=
  (∀ x, x ∈ st.visited ↔ x ∈ st.topo ∨ x ∈ A) ∧
    st.topo.Nodup ∧ (∀ a ∈ A, a ∉ st.topo) ∧ childFirst g st.topo.reverse

/-! ## The adjoint: derivative of the root along all graph paths -/

/-- Local derivative rule of a closure with respect to a node `x`, summed
over the capture positions (so `x` captured twice contributes twice). -/
def locAux (g : GraphState) (c : Nat) : BackClos → Nat → ℚ
  | BackClos.noop, _ => 0
  | BackClos.addc l r, x => (if l = x then 1 else 0) + (if r = x then 1 else 0)
  | BackClos.mulc l r, x =>
      (if l = x then dataOf g r else 0) + (if r = x then dataOf g l else 0)
  | BackClos.powc a e, x => if a = x then (e : ℚ) * dataOf g a ^ (e - 1) else 0
  | BackClos.sigc a, x => if a = x then dataOf g c * (1 - dataOf g c) else 0
  | BackClos.reluc a, x => if a = x then (if 0 < dataOf g c then 1 else 0) else 0

/-- Local derivative of node `c` with respect to a node `x` it captured.
This is exactly what `c`'s closure adds into `x.grad` per unit of
`c.grad`. -/
def locDeriv (g : GraphState) (c x : Nat) : ℚ := locAux g c (closOf g c) x

/-- Fuel-indexed adjoint: the partial derivative of `root`'s value with
respect to node `v`'s value, as the sum over all graph paths from `v` up
to `root` of the products of local derivatives along them, written as the
standard recursion over `v`'s children.  Children have strictly larger
indices, so `g.length - v` steps of fuel always suffice. -/
def adjF (g : GraphState) (root : Nat) : Nat → Nat → ℚ
  | 0, v => if v = root then 1 else 0
  | fuel + 1, v =>
      (if v = root then 1 else 0) +
        ∑ c ∈ (Finset.range g.length).filter (fun c => v < c),
          locDeriv g c v * adjF g root fuel c

/-- The adjoint of node `v` for the pass rooted at `root`. -/
def adj (g : GraphState) (root v : Nat) : ℚ := adjF g root (g.length - v) v

/-- Sigmoid test on a closure, decidably. -/
def isSigmoid : BackClos → Bool
  | BackClos.sigc _ => true
  | _ => false

/-- No node of the graph was produced by `sigmoid`. -/
def noSigmoid (g : GraphState) : Prop :=
  ∀ i, i < g.length → isSigmoid (closOf g i) = false

/-- All gradients are still zero (a fresh graph, before any backward pass). -/
def zeroGrads (g : GraphState) : Prop :=
  ∀ i, i < g.length → gradOf g i = 0

/-! ## The backward pass computes the adjoint -/

/-- Accumulated contribution pushed so far: the nodes of `Q` have already
run their closures, and each pushed its local derivative times its own
adjoint. -/
def contribSum (g : GraphState) (root : Nat) (Q : List Nat) (x : Nat) : ℚ :=
  (Q.map (fun c => locDeriv g c x * adj g root c)).sum

namespace node

/-- Append a freshly constructed node; returns the new state and the new
node's index. -/
def mkNode (g : GraphState) (nd : NodeData) : GraphState × Nat :=
  (g ++ [nd], g.length)

/-- `Node(data, label=...)`: a leaf. -/
def leaf (g : GraphState) (q : ℚ) (lab : Option String) : GraphState × Nat :=
  mkNode g ⟨q, 0, [], none, lab, BackClos.noop⟩

/-- Core of `Node.__add__` once both operands are nodes. -/
def addVV (g : GraphState) (a b : Nat) : GraphState × Nat :=
  mkNode g ⟨dataOf g a + dataOf g b, 0, pairSet a b, some Op.add, none, BackClos.addc a b⟩

/-- Core of `Node.__mul__` once both operands are nodes. -/
def mulVV (g : GraphState) (a b : Nat) : GraphState × Nat :=
  mkNode g ⟨dataOf g a * dataOf g b, 0, pairSet a b, some Op.mul, none, BackClos.mulc a b⟩

/-- `Node.__pow__`: `self.data ** other` can raise on a zero base. -/
def powVV (g : GraphState) (a : Nat) (e : Int) : Except String (GraphState × Nat) :=
  (pyPowNum (dataOf g a) e).map fun d =>
    mkNode g ⟨d, 0, [a], some (Op.pow e), none, BackClos.powc a e⟩

/-- `Node.sigmoid`; `sig` stands for `fun x => 1 / (1 + exp (-x))`. -/
def sigmoidVV (sig : ℚ → ℚ) (g : GraphState) (a : Nat) : GraphState × Nat :=
  mkNode g ⟨sig (dataOf g a), 0, [a], some Op.sigmoid, none, BackClos.sigc a⟩

/-- `Node.relu`: `0 if self.data <= 0 else self.data`. -/
def reluVV (g : GraphState) (a : Nat) : GraphState × Nat :=
  mkNode g ⟨if dataOf g a ≤ 0 then 0 else dataOf g a, 0, [a], some Op.relu, none,
    BackClos.reluc a⟩

/-- `other if isinstance(other, Node) else Node(other)`. -/
def coe0 (g : GraphState) : Operand → GraphState × Nat
  | Operand.node i => (g, i)
  | Operand.num q => leaf g q none

/-- `Node.__add__` (and `__radd__`). -/
def pyAdd (g : GraphState) (a : Nat) (o : Operand) : GraphState × Nat :=
  let p := coe0 g o
  addVV p.1 a p.2

/-- `Node.__mul__` (and `__rmul__`). -/
def pyMul (g : GraphState) (a : Nat) (o : Operand) : GraphState × Nat :=
  let p := coe0 g o
  mulVV p.1 a p.2

/-- `Node.__neg__`: `self * -1`. -/
def pyNeg (g : GraphState) (a : Nat) : GraphState × Nat :=
  pyMul g a (Operand.num (-1))

/-- `Node.__sub__`: `self + (-other)`. -/
def pySub (g : GraphState) (a : Nat) : Operand → GraphState × Nat
  | Operand.node b =>
      let p := pyNeg g b
      pyAdd p.1 a (Operand.node p.2)
  | Operand.num q => pyAdd g a (Operand.num (-q))

/-- `Node.__rsub__` with a bare number first operand. -/
def pyRSub (g : GraphState) (q : ℚ) (a : Nat) : GraphState × Nat :=
  let p := pyNeg g a
  pyAdd p.1 p.2 (Operand.num q)

/-- `Node.__truediv__`: `self * other ** -1`. -/
def pyDiv (g : GraphState) (a : Nat) : Operand → Except String (GraphState × Nat)
  | Operand.node b =>
      (powVV g b (-1)).map fun p => mulVV p.1 a p.2
  | Operand.num q =>
      (pyPowNum q (-1)).map fun r => pyMul g a (Operand.num r)

/-- `Node.__rtruediv__` with a bare number first operand. -/
def pyRDiv (g : GraphState) (q : ℚ) (a : Nat) : Except String (GraphState × Nat) :=
  (powVV g a (-1)).map fun p => pyMul p.1 p.2 (Operand.num q)

/-- Overwrite `grad` of node `i`. -/
def setGrad (g : GraphState) (i : Nat) (q : ℚ) : GraphState :=
  g.set i { g.getD i default with grad := q }

/-- `grad +=`: accumulate into node `i`. -/
def addGrad (g : GraphState) (i : Nat) (q : ℚ) : GraphState :=
  setGrad g i (gradOf g i + q)

/-- Run node `i`'s `_backward` closure, statement by statement. -/
def propagate (g : GraphState) (i : Nat) : Except String GraphState :=
  match closOf g i with
  | BackClos.noop => Except.ok g
  | BackClos.addc l r =>
      let g1 := addGrad g l (gradOf g i)
      Except.ok (addGrad g1 r (gradOf g1 i))
  | BackClos.mulc l r =>
      let g1 := addGrad g l (dataOf g r * gradOf g i)
      Except.ok (addGrad g1 r (dataOf g1 l * gradOf g1 i))
  | BackClos.powc a e =>
      (pyPowNum (dataOf g a) (e - 1)).map fun p =>
        addGrad g a ((e : ℚ) * p * gradOf g i)
  | BackClos.sigc a =>
      Except.ok (setGrad g a (dataOf g i * (1 - dataOf g i) * gradOf g i))
  | BackClos.reluc a =>
      Except.ok (addGrad g a ((if 0 < dataOf g i then 1 else 0) * gradOf g i))

/-- `Node.backward.build_topo`. -/
def visit (g : GraphState) : Nat → Nat → TopoSt → TopoSt
  | 0, _, st => st
  | fuel + 1, v, st =>
      if v ∈ st.visited then st
      else
        let st1 : TopoSt := ⟨v :: st.visited, st.topo⟩
        let st2 := (prevOf g v).foldl (fun s p => visit g fuel p s) st1
        ⟨st2.visited, st2.topo ++ [v]⟩

/-- The discovery sequence `topo` that `Node.backward` builds. -/
def buildTopo (g : GraphState) (root : Nat) : List Nat :=
  (visit g (root + 1) root ⟨[], []⟩).topo

/-- `Node.backward`. -/
def backward (g : GraphState) (root : Nat) : Except String GraphState :=
  (buildTopo g root).reverse.foldlM propagate (setGrad g root 1)

/-- Interpret one public call of the `Node` class. -/
def execInstr (sig : ℚ → ℚ) (g : GraphState) : Instr → Except String GraphState
  | Instr.leafI q lab => Except.ok (leaf g q lab).1
  | Instr.addI a o =>
      if a < g.length ∧ operandOk g o then Except.ok (pyAdd g a o).1
      else Except.error "invalid node id"
  | Instr.raddI q a =>
      if a < g.length then Except.ok (pyAdd g a (Operand.num q)).1
      else Except.error "invalid node id"
  | Instr.subI a o =>
      if a < g.length ∧ operandOk g o then Except.ok (pySub g a o).1
      else Except.error "invalid node id"
  | Instr.rsubI q a =>
      if a < g.length then Except.ok (pyRSub g q a).1
      else Except.error "invalid node id"
  | Instr.mulI a o =>
      if a < g.length ∧ operandOk g o then Except.ok (pyMul g a o).1
      else Except.error "invalid node id"
  | Instr.rmulI q a =>
      if a < g.length then Except.ok (pyMul g a (Operand.num q)).1
      else Except.error "invalid node id"
  | Instr.divI a o =>
      if a < g.length ∧ operandOk g o then (pyDiv g a o).map Prod.fst
      else Except.error "invalid node id"
  | Instr.rdivI q a =>
      if a < g.length then (pyRDiv g q a).map Prod.fst
      else Except.error "invalid node id"
  | Instr.negI a =>
      if a < g.length then Except.ok (pyNeg g a).1
      else Except.error "invalid node id"
  | Instr.powI a e =>
      if a < g.length then (powVV g a e).map Prod.fst
      else Except.error "invalid node id"
  | Instr.sigmoidI a =>
      if a < g.length then Except.ok (sigmoidVV sig g a).1
      else Except.error "invalid node id"
  | Instr.reluI a =>
      if a < g.length then Except.ok (reluVV g a).1
      else Except.error "invalid node id"
  | Instr.backwardI a =>
      if a < g.length then backward g a
      else Except.error "invalid node id"

/-- Run a sequence of public calls of the `Node` class. -/
def exec (sig : ℚ → ℚ) (p : List Instr) : Except String GraphState :=
  p.foldlM (execInstr sig) []

end node

/-! ## Claim-level programs and concrete states -/

deriving instance DecidableEq for Except

/-- A computable stand-in for the sigmoid forward computation, used to
instantiate witnesses (no claim below depends on its values). -/
def sigModel : ℚ → ℚ := id

/-- Extract the state of a successful run (empty arena on error). -/
def ofOk : Except String GraphState → GraphState
  | Except.ok g => g
  | Except.error _ => []

/-- All gradients of a state, in creation order. -/
def gradList (g : GraphState) : List ℚ :=
  g.map fun nd => nd.grad

/-- `x = Value(vx); w = Value(vw); b = Value(vb); y = x * w + b; y.backward()`. -/
def c1prog (vx vw vb : ℚ) : List Instr :=
  [Instr.leafI vx (some "x"), Instr.leafI vw (some "w"), Instr.leafI vb (some "b"),
    Instr.mulI 0 (Operand.node 1), Instr.addI 3 (Operand.node 2), Instr.backwardI 4]

/-- The same graph with `backward` called twice on the root. -/
def c4prog (vx vw vb : ℚ) : List Instr :=
  c1prog vx vw vb ++ [Instr.backwardI 4]

/-- State after one backward pass on `y = x * w + b` at `x=2, w=3, b=5`. -/
def c4g1 : GraphState := ofOk (value.exec sigModel (c1prog 2 3 5))

/-- State after two backward passes on the same graph and root. -/
def c4g2 : GraphState := ofOk (value.exec sigModel (c4prog 2 3 5))

/-- A graph with shared node 0: `y = (s + 1) + (s * 3)`. -/
def c2prog : List Instr :=
  [Instr.leafI 2 (some "s"), Instr.addI 0 (Operand.num 1), Instr.mulI 0 (Operand.num 3),
    Instr.addI 2 (Operand.node 4)]

/-- The diamond graph state (6 nodes, root 5), gradients untouched. -/
def c2g : GraphState := ofOk (value.exec sigModel c2prog)

/-- The diamond graph state after `backward` on the root. -/
def c3g1 : GraphState := ofOk (value.backward c2g 5)

/-- One node of every operation kind hanging off leaf 0. -/
def c5prog : List Instr :=
  [Instr.leafI 1 none, Instr.sigmoidI 0, Instr.addI 0 (Operand.num 2),
    Instr.mulI 0 (Operand.num 4), Instr.powI 0 2, Instr.reluI 0]

/-- State carrying a sigmoid, an add, a mul, a pow and a relu node. -/
def c5g : GraphState := ofOk (value.exec sigModel c5prog)

/-- `Value(0.0) ** 0`, then `backward` on the power node: the derivative
evaluates `0.0 ** -1`. -/
def c6prog : List Instr :=
  [Instr.leafI 0 none, Instr.powI 0 0, Instr.backwardI 1]

/-- The state holding `Value(0.0)` and its `** 0` node, before backward. -/
def c6g : GraphState := ofOk (value.exec sigModel [Instr.leafI 0 none, Instr.powI 0 0])

/-- A one-leaf arena for the subtract/divide counterexamples. -/
def c7g : GraphState := [⟨5, 0, [], none, none, BackClos.noop⟩]

/-- Modelled from the spec: `negate(b) = multiply(b, -1)` with the bare
`-1` coerced into a fresh leaf. -/
def specNegate (g : GraphState) (b : Nat) : GraphState × Nat :=
  let p := value.leaf g (-1) none
  value.mulVV p.1 b p.2

/-- Modelled from the spec: `subtract(a, b) = add(a, negate(b))`, a bare
number operand coerced into a fresh zero-parent leaf first. -/
def specSubtract (g : GraphState) (a : Nat) (o : Operand) : GraphState × Nat :=
  let p := value.coe0 g o
  let n := specNegate p.1 p.2
  value.addVV n.1 a n.2

/-- Modelled from the spec: `divide(a, b) = multiply(a, power(b, -1))`, a
bare number operand coerced into a fresh zero-parent leaf first. -/
def specDivide (g : GraphState) (a : Nat) (o : Operand) : Except String (GraphState × Nat) :=
  let p := value.coe0 g o
  (value.powVV p.1 p.2 (-1)).map fun w => value.mulVV w.1 a w.2

instance (g : GraphState) : Decidable (zeroGrads g) :=
  inferInstanceAs (Decidable (∀ i, i < g.length → gradOf g i = 0))

instance (g : GraphState) : Decidable (noSigmoid g) :=
  inferInstanceAs (Decidable (∀ i, i < g.length → isSigmoid (closOf g i) = false))

/-! ## The visualizer: src/visualize.py -/

/-- What `Visualize.draw` emits, up to the graphviz text rendering: the
output format, the validated layout direction, the traced node set and the
traced dependency edges.  The per-node record labels and operation
pseudo-nodes are derived from these without further error paths. -/
structure VizGraph where
  fmt : String
  rankdir : String
  nodes : List Nat
  edges : List (Nat × Nat)

deriving DecidableEq

namespace visualize

/-- `Visualize._trace`: its `build` recursion carries the same membership
guard as `build_topo`, so the collected node set is the DFS visited set,
and one edge `(child, v)` is recorded per collected `v` and parent
`child`. -/
def trace (g : GraphState) (root : Nat) : List Nat × List (Nat × Nat) :=
  let ns := (value.visit g (root + 1) root ⟨[], []⟩).visited
  (ns, ns.flatMap fun v => (prevOf g v).map fun c => (c, v))

/-- `Visualize.draw`: asserts the layout direction before any tracing.
(The Python assertion message reads: rankdir must be LR or TB.) -/
def draw (g : GraphState) (root : Nat) (fmt rankdir : String) : Except String VizGraph :=
  if rankdir = "LR" ∨ rankdir = "TB" then
    Except.ok ⟨fmt, rankdir, (trace g root).1, (trace g root).2⟩
  else Except.error "AssertionError: rankdir must be LR or TB"

end visualize

/-! # Theorems -/

/-! ## Basic facts about the accessors -/

theorem getD_snoc_lt {α : Type} {l : List α} {i : Nat} (a d : α) (h : i < l.length) :
    (l ++ [a]).getD i d = l.getD i d :=
  List.getD_append _ _ _ _ h

theorem getD_snoc_self {α : Type} (l : List α) (a d : α) :
    (l ++ [a]).getD l.length d = a := by
  simp [List.getD_append_right]

theorem getD_oob {α : Type} {l : List α} {i : Nat} (d : α) (h : l.length ≤ i) :
    l.getD i d = d :=
  List.getD_eq_default _ _ h

theorem prevOf_oob {g : GraphState} {i : Nat} (h : g.length ≤ i) : prevOf g i = [] := by
  unfold prevOf
  rw [getD_oob _ h]
  rfl

theorem closOf_oob {g : GraphState} {i : Nat} (h : g.length ≤ i) :
    closOf g i = BackClos.noop := by
  unfold closOf
  rw [getD_oob _ h]
  rfl

theorem gradOf_oob {g : GraphState} {i : Nat} (h : g.length ≤ i) : gradOf g i = 0 := by
  unfold gradOf
  rw [getD_oob _ h]
  rfl

theorem mem_pairSet {p l r : Nat} : p ∈ pairSet l r ↔ p = l ∨ p = r := by
  unfold pairSet
  split
  · simp_all
  · simp

namespace value

theorem setGrad_length (g : GraphState) (i : Nat) (q : ℚ) :
    (setGrad g i q).length = g.length :=
  List.length_set _ _ _

theorem setGrad_oob {g : GraphState} {i : Nat} (q : ℚ) (h : g.length ≤ i) :
    setGrad g i q = g := by
  unfold setGrad
  exact List.set_eq_of_length_le h

theorem getD_setGrad_self {g : GraphState} {i : Nat} (q : ℚ) (h : i < g.length) :
    (setGrad g i q).getD i default = { g.getD i default with grad := q } := by
  unfold setGrad
  rw [List.getD_eq_getElem?_getD, List.getElem?_set_self (by simpa using h),
    Option.getD_some]

theorem getD_setGrad_ne {g : GraphState} {i j : Nat} (q : ℚ) (h : i ≠ j) :
    (setGrad g i q).getD j default = g.getD j default := by
  unfold setGrad
  rw [List.getD_eq_getElem?_getD, List.getElem?_set_ne h, ← List.getD_eq_getElem?_getD]

theorem dataOf_setGrad (g : GraphState) (i : Nat) (q : ℚ) (j : Nat) :
    dataOf (setGrad g i q) j = dataOf g j := by
  rcases Nat.lt_or_ge i g.length with h | h
  · rcases eq_or_ne i j with rfl | hne
    · unfold dataOf
      rw [getD_setGrad_self q h]
    · unfold dataOf
      rw [getD_setGrad_ne q hne]
  · rw [setGrad_oob q h]

theorem prevOf_setGrad (g : GraphState) (i : Nat) (q : ℚ) (j : Nat) :
    prevOf (setGrad g i q) j = prevOf g j := by
  rcases Nat.lt_or_ge i g.length with h | h
  · rcases eq_or_ne i j with rfl | hne
    · unfold prevOf
      rw [getD_setGrad_self q h]
    · unfold prevOf
      rw [getD_setGrad_ne q hne]
  · rw [setGrad_oob q h]

theorem closOf_setGrad (g : GraphState) (i : Nat) (q : ℚ) (j : Nat) :
    closOf (setGrad g i q) j = closOf g j := by
  rcases Nat.lt_or_ge i g.length with h | h
  · rcases eq_or_ne i j with rfl | hne
    · unfold closOf
      rw [getD_setGrad_self q h]
    · unfold closOf
      rw [getD_setGrad_ne q hne]
  · rw [setGrad_oob q h]

theorem gradOf_setGrad {g : GraphState} {i : Nat} (q : ℚ) (h : i < g.length) (j : Nat) :
    gradOf (setGrad g i q) j = if i = j then q else gradOf g j := by
  rcases eq_or_ne i j with rfl | hne
  · unfold gradOf
    rw [getD_setGrad_self q h]
    simp
  · unfold gradOf
    rw [getD_setGrad_ne q hne, if_neg hne]

theorem addGrad_length (g : GraphState) (i : Nat) (q : ℚ) :
    (addGrad g i q).length = g.length :=
  setGrad_length _ _ _

theorem dataOf_addGrad (g : GraphState) (i : Nat) (q : ℚ) (j : Nat) :
    dataOf (addGrad g i q) j = dataOf g j :=
  dataOf_setGrad _ _ _ _

theorem prevOf_addGrad (g : GraphState) (i : Nat) (q : ℚ) (j : Nat) :
    prevOf (addGrad g i q) j = prevOf g j :=
  prevOf_setGrad _ _ _ _

theorem closOf_addGrad (g : GraphState) (i : Nat) (q : ℚ) (j : Nat) :
    closOf (addGrad g i q) j = closOf g j :=
  closOf_setGrad _ _ _ _

theorem gradOf_addGrad {g : GraphState} {i : Nat} (q : ℚ) (h : i < g.length) (j : Nat) :
    gradOf (addGrad g i q) j = gradOf g j + if i = j then q else 0 := by
  unfold addGrad
  rw [gradOf_setGrad _ h j]
  rcases eq_or_ne i j with rfl | hne
  · simp
  · simp [hne]

end value

theorem sameShape_rfl (g : GraphState) : sameShape g g :=
  ⟨rfl, fun _ => ⟨rfl, rfl, rfl⟩⟩

theorem sameShape_trans {g h k : GraphState} (h1 : sameShape g h) (h2 : sameShape h k) :
    sameShape g k :=
  ⟨h2.1.trans h1.1, fun i =>
    ⟨((h2.2 i).1).trans (h1.2 i).1, ((h2.2 i).2.1).trans (h1.2 i).2.1,
      ((h2.2 i).2.2).trans (h1.2 i).2.2⟩⟩

theorem sameShape_setGrad (g : GraphState) (i : Nat) (q : ℚ) :
    sameShape g (value.setGrad g i q) :=
  ⟨value.setGrad_length g i q, fun j =>
    ⟨value.dataOf_setGrad g i q j, value.prevOf_setGrad g i q j, value.closOf_setGrad g i q j⟩⟩

theorem sameShape_addGrad (g : GraphState) (i : Nat) (q : ℚ) :
    sameShape g (value.addGrad g i q) :=
  sameShape_setGrad _ _ _

theorem WF_prev_lt {g : GraphState} (hWF : WF g) {i p : Nat} (hp : p ∈ prevOf g i) :
    p < i := by
  rcases Nat.lt_or_ge i g.length with h | h
  · exact (hWF i h).1 p hp
  · rw [prevOf_oob h] at hp
    cases hp

theorem WF_closOps_prev {g : GraphState} (hWF : WF g) {i p : Nat}
    (hp : p ∈ closOps (closOf g i)) : p ∈ prevOf g i := by
  rcases Nat.lt_or_ge i g.length with h | h
  · exact (hWF i h).2 p hp
  · rw [closOf_oob h] at hp
    cases hp

theorem WF_closOps_lt {g : GraphState} (hWF : WF g) {i p : Nat}
    (hp : p ∈ closOps (closOf g i)) : p < i :=
  WF_prev_lt hWF (WF_closOps_prev hWF hp)

theorem WF_of_sameShape {g h : GraphState} (hs : sameShape g h) (hWF : WF g) : WF h := by
  intro i hi
  rw [hs.1] at hi
  rw [(hs.2 i).2.1, (hs.2 i).2.2]
  exact hWF i hi

theorem prevOf_snoc_lt {g : GraphState} {i : Nat} (nd : NodeData) (h : i < g.length) :
    prevOf (g ++ [nd]) i = prevOf g i := by
  unfold prevOf
  rw [getD_snoc_lt _ _ h]

theorem closOf_snoc_lt {g : GraphState} {i : Nat} (nd : NodeData) (h : i < g.length) :
    closOf (g ++ [nd]) i = closOf g i := by
  unfold closOf
  rw [getD_snoc_lt _ _ h]

theorem prevOf_snoc_self (g : GraphState) (nd : NodeData) :
    prevOf (g ++ [nd]) g.length = nd.prev := by
  unfold prevOf
  rw [getD_snoc_self]

theorem closOf_snoc_self (g : GraphState) (nd : NodeData) :
    closOf (g ++ [nd]) g.length = nd.clos := by
  unfold closOf
  rw [getD_snoc_self]

theorem WF_snoc {g : GraphState} {nd : NodeData} (hWF : WF g)
    (h1 : ∀ p ∈ nd.prev, p < g.length) (h2 : ∀ p ∈ closOps nd.clos, p ∈ nd.prev) :
    WF (g ++ [nd]) := by
  intro i hi
  rw [List.length_append, List.length_singleton] at hi
  rcases Nat.lt_or_ge i g.length with h | h
  · rw [prevOf_snoc_lt nd h, closOf_snoc_lt nd h]
    exact hWF i h
  · have hi2 : i = g.length := Nat.le_antisymm (Nat.lt_succ_iff.mp hi) h
    subst hi2
    rw [prevOf_snoc_self, closOf_snoc_self]
    exact ⟨h1, h2⟩

/-! ## Inversion helpers for `Except` computations -/

theorem exceptBind_inv {α β : Type} {e : Except String α} {f : α → Except String β} {t : β}
    (h : (e >>= f) = Except.ok t) : ∃ s, e = Except.ok s ∧ f s = Except.ok t := by
  cases e with
  | ok v => exact ⟨v, rfl, h⟩
  | error msg => exact absurd h (by simp [Bind.bind, Except.bind])

theorem exceptMap_inv {α β : Type} {e : Except String α} {f : α → β} {t : β}
    (h : e.map f = Except.ok t) : ∃ s, e = Except.ok s ∧ f s = t := by
  cases e with
  | ok v =>
      refine ⟨v, rfl, ?_⟩
      simpa [Except.map] using h
  | error msg => exact absurd h (by simp [Except.map])

theorem foldlM_ok_cons {σ α : Type} {f : σ → α → Except String σ} {s t : σ} {x : α}
    {l : List α} (h : List.foldlM f s (x :: l) = Except.ok t) :
    ∃ s1, f s x = Except.ok s1 ∧ List.foldlM f s1 l = Except.ok t := by
  rw [List.foldlM_cons] at h
  exact exceptBind_inv h

theorem foldlM_ok_nil {σ α : Type} {f : σ → α → Except String σ} {s t : σ}
    (h : List.foldlM f s ([] : List α) = Except.ok t) : s = t := by
  rw [List.foldlM_nil] at h
  exact Except.ok.inj h

theorem pyPowNum_ok {x : ℚ} {n : Int} {y : ℚ} (h : pyPowNum x n = Except.ok y) :
    y = x ^ n := by
  unfold pyPowNum at h
  split at h
  · cases h
  · exact (Except.ok.inj h).symm

/-! ## The backward pass only rewrites gradients -/

theorem propagate_shape {g g1 : GraphState} {i : Nat}
    (h : value.propagate g i = Except.ok g1) : sameShape g g1 := by
  unfold value.propagate at h
  cases hcl : closOf g i <;> rw [hcl] at h
  case noop =>
    obtain rfl := Except.ok.inj h
    exact sameShape_rfl g
  case addc l r =>
    obtain rfl := Except.ok.inj h
    exact sameShape_trans (sameShape_addGrad _ _ _) (sameShape_addGrad _ _ _)
  case mulc l r =>
    obtain rfl := Except.ok.inj h
    exact sameShape_trans (sameShape_addGrad _ _ _) (sameShape_addGrad _ _ _)
  case powc a e =>
    obtain ⟨d, _, h2⟩ := exceptMap_inv h
    rw [← h2]
    exact sameShape_addGrad _ _ _
  case sigc a =>
    obtain rfl := Except.ok.inj h
    exact sameShape_setGrad _ _ _
  case reluc a =>
    obtain rfl := Except.ok.inj h
    exact sameShape_addGrad _ _ _

theorem foldlM_propagate_shape :
    ∀ (l : List Nat) (g0 gf : GraphState),
      List.foldlM value.propagate g0 l = Except.ok gf → sameShape g0 gf := by
  intro l
  induction l with
  | nil =>
      intro g0 gf h
      obtain rfl := foldlM_ok_nil h
      exact sameShape_rfl _
  | cons x xs ih =>
      intro g0 gf h
      obtain ⟨g1, h1, h2⟩ := foldlM_ok_cons h
      exact sameShape_trans (propagate_shape h1) (ih g1 gf h2)

theorem backward_shape {g g1 : GraphState} {root : Nat}
    (h : value.backward g root = Except.ok g1) : sameShape g g1 := by
  unfold value.backward at h
  exact sameShape_trans (sameShape_setGrad g root 1) (foldlM_propagate_shape _ _ _ h)

theorem backward_WF {g g1 : GraphState} {root : Nat} (hWF : WF g)
    (h : value.backward g root = Except.ok g1) : WF g1 :=
  WF_of_sameShape (backward_shape h) hWF

theorem leaf_out {g : GraphState} (hWF : WF g) (q : ℚ) (lab : Option String) :
    opOut g (value.leaf g q lab) := by
  refine ⟨WF_snoc hWF ?_ ?_, ?_, ?_⟩
  · intro p hp
    cases hp
  · intro p hp
    cases hp
  · simp [value.leaf, value.mkNode]
  · simp [value.leaf, value.mkNode]

theorem addVV_out {g : GraphState} {a b : Nat} (hWF : WF g) (ha : a < g.length)
    (hb : b < g.length) : opOut g (value.addVV g a b) := by
  refine ⟨WF_snoc hWF ?_ ?_, ?_, ?_⟩
  · intro p hp
    rcases mem_pairSet.mp hp with rfl | rfl
    · exact ha
    · exact hb
  · intro p hp
    simp only [closOps, List.mem_cons, List.mem_singleton] at hp
    rcases hp with rfl | rfl | h
    · exact mem_pairSet.mpr (Or.inl rfl)
    · exact mem_pairSet.mpr (Or.inr rfl)
    · cases h
  · simp [value.addVV, value.mkNode]
  · simp [value.addVV, value.mkNode]

theorem mulVV_out {g : GraphState} {a b : Nat} (hWF : WF g) (ha : a < g.length)
    (hb : b < g.length) : opOut g (value.mulVV g a b) := by
  refine ⟨WF_snoc hWF ?_ ?_, ?_, ?_⟩
  · intro p hp
    rcases mem_pairSet.mp hp with rfl | rfl
    · exact ha
    · exact hb
  · intro p hp
    simp only [closOps, List.mem_cons, List.mem_singleton] at hp
    rcases hp with rfl | rfl | h
    · exact mem_pairSet.mpr (Or.inl rfl)
    · exact mem_pairSet.mpr (Or.inr rfl)
    · cases h
  · simp [value.mulVV, value.mkNode]
  · simp [value.mulVV, value.mkNode]

theorem powVV_out {g : GraphState} {a : Nat} {e : Int} {pr : GraphState × Nat}
    (hWF : WF g) (ha : a < g.length) (h : value.powVV g a e = Except.ok pr) :
    opOut g pr := by
  unfold value.powVV at h
  obtain ⟨d, _, h2⟩ := exceptMap_inv h
  subst h2
  refine ⟨WF_snoc hWF ?_ ?_, ?_, ?_⟩
  · intro p hp
    rcases List.mem_singleton.mp hp with rfl
    exact ha
  · intro p hp
    simp only [closOps, List.mem_singleton] at hp
    subst hp
    exact List.mem_singleton.mpr rfl
  · simp [value.mkNode]
  · simp [value.mkNode]

theorem sigmoidVV_out {sig : ℚ → ℚ} {g : GraphState} {a : Nat} (hWF : WF g)
    (ha : a < g.length) : opOut g (value.sigmoidVV sig g a) := by
  refine ⟨WF_snoc hWF ?_ ?_, ?_, ?_⟩
  · intro p hp
    rcases List.mem_singleton.mp hp with rfl
    exact ha
  · intro p hp
    simp only [closOps, List.mem_singleton] at hp
    subst hp
    exact List.mem_singleton.mpr rfl
  · simp [value.sigmoidVV, value.mkNode]
  · simp [value.sigmoidVV, value.mkNode]

theorem reluVV_out {g : GraphState} {a : Nat} (hWF : WF g) (ha : a < g.length) :
    opOut g (value.reluVV g a) := by
  refine ⟨WF_snoc hWF ?_ ?_, ?_, ?_⟩
  · intro p hp
    rcases List.mem_singleton.mp hp with rfl
    exact ha
  · intro p hp
    simp only [closOps, List.mem_singleton] at hp
    subst hp
    exact List.mem_singleton.mpr rfl
  · simp [value.reluVV, value.mkNode]
  · simp [value.reluVV, value.mkNode]

theorem coe0_out {g : GraphState} (o : Operand) (hWF : WF g)
    (ho : operandOk g o = true) : opOut g (value.coe0 g o) := by
  cases o with
  | node i =>
      have : i < g.length := by simpa [operandOk] using ho
      exact ⟨hWF, this, Nat.le_refl _⟩
  | num q => exact leaf_out hWF q none

theorem pyAdd_out {g : GraphState} {a : Nat} (o : Operand) (hWF : WF g)
    (ha : a < g.length) (ho : operandOk g o = true) : opOut g (value.pyAdd g a o) := by
  obtain ⟨h1, h2, h3⟩ := coe0_out o hWF ho
  obtain ⟨k1, k2, k3⟩ := addVV_out h1 (Nat.lt_of_lt_of_le ha h3) h2
  exact ⟨k1, k2, Nat.le_trans h3 k3⟩

theorem pyMul_out {g : GraphState} {a : Nat} (o : Operand) (hWF : WF g)
    (ha : a < g.length) (ho : operandOk g o = true) : opOut g (value.pyMul g a o) := by
  obtain ⟨h1, h2, h3⟩ := coe0_out o hWF ho
  obtain ⟨k1, k2, k3⟩ := mulVV_out h1 (Nat.lt_of_lt_of_le ha h3) h2
  exact ⟨k1, k2, Nat.le_trans h3 k3⟩

theorem pyNeg_out {g : GraphState} {a : Nat} (hWF : WF g) (ha : a < g.length) :
    opOut g (value.pyNeg g a) :=
  pyMul_out (Operand.num (-1)) hWF ha rfl

theorem pySub_out {g : GraphState} {a : Nat} (o : Operand) (hWF : WF g)
    (ha : a < g.length) (ho : operandOk g o = true) : opOut g (value.pySub g a o) := by
  cases o with
  | node b =>
      have hb : b < g.length := by simpa [operandOk] using ho
      obtain ⟨h1, h2, h3⟩ := pyNeg_out hWF hb
      obtain ⟨k1, k2, k3⟩ :=
        pyAdd_out (Operand.node (value.pyNeg g b).2) h1 (Nat.lt_of_lt_of_le ha h3)
          (by simpa [operandOk] using h2)
      exact ⟨k1, k2, Nat.le_trans h3 k3⟩
  | num q => exact pyAdd_out (Operand.num (-q)) hWF ha rfl

theorem pyRSub_out {g : GraphState} {a : Nat} (q : ℚ) (hWF : WF g) (ha : a < g.length) :
    opOut g (value.pyRSub g q a) := by
  obtain ⟨h1, h2, h3⟩ := pyNeg_out hWF ha
  obtain ⟨k1, k2, k3⟩ := pyAdd_out (Operand.num q) h1 h2 rfl
  exact ⟨k1, k2, Nat.le_trans h3 k3⟩

theorem pyDiv_out {g : GraphState} {a : Nat} (o : Operand) {pr : GraphState × Nat}
    (hWF : WF g) (ha : a < g.length) (ho : operandOk g o = true)
    (h : value.pyDiv g a o = Except.ok pr) : opOut g pr := by
  cases o with
  | node b =>
      have hb : b < g.length := by simpa [operandOk] using ho
      unfold value.pyDiv at h
      obtain ⟨p1, hp1, hp2⟩ := exceptMap_inv h
      subst hp2
      obtain ⟨h1, h2, h3⟩ := powVV_out hWF hb hp1
      obtain ⟨k1, k2, k3⟩ := mulVV_out h1 (Nat.lt_of_lt_of_le ha h3) h2
      exact ⟨k1, k2, Nat.le_trans h3 k3⟩
  | num q =>
      unfold value.pyDiv at h
      obtain ⟨r, _, hp2⟩ := exceptMap_inv h
      subst hp2
      exact pyMul_out (Operand.num r) hWF ha rfl

theorem pyRDiv_out {g : GraphState} {a : Nat} {q : ℚ} {pr : GraphState × Nat}
    (hWF : WF g) (ha : a < g.length) (h : value.pyRDiv g q a = Except.ok pr) :
    opOut g pr := by
  unfold value.pyRDiv at h
  obtain ⟨p1, hp1, hp2⟩ := exceptMap_inv h
  subst hp2
  obtain ⟨h1, h2, h3⟩ := powVV_out hWF ha hp1
  obtain ⟨k1, k2, k3⟩ := pyMul_out (Operand.num q) h1 h2 rfl
  exact ⟨k1, k2, Nat.le_trans h3 k3⟩

theorem execInstr_WF {sig : ℚ → ℚ} {g g1 : GraphState} {ins : Instr} (hWF : WF g)
    (h : value.execInstr sig g ins = Except.ok g1) : WF g1 := by
  cases ins <;> simp only [value.execInstr] at h
  case leafI q lab =>
    obtain rfl := Except.ok.inj h
    exact (leaf_out hWF q lab).1
  case addI a o =>
    split at h
    · obtain rfl := Except.ok.inj h
      next hc => exact (pyAdd_out o hWF hc.1 hc.2).1
    · cases h
  case raddI q a =>
    split at h
    · obtain rfl := Except.ok.inj h
      next hc => exact (pyAdd_out (Operand.num q) hWF hc rfl).1
    · cases h
  case subI a o =>
    split at h
    · obtain rfl := Except.ok.inj h
      next hc => exact (pySub_out o hWF hc.1 hc.2).1
    · cases h
  case rsubI q a =>
    split at h
    · obtain rfl := Except.ok.inj h
      next hc => exact (pyRSub_out q hWF hc).1
    · cases h
  case mulI a o =>
    split at h
    · obtain rfl := Except.ok.inj h
      next hc => exact (pyMul_out o hWF hc.1 hc.2).1
    · cases h
  case rmulI q a =>
    split at h
    · obtain rfl := Except.ok.inj h
      next hc => exact (pyMul_out (Operand.num q) hWF hc rfl).1
    · cases h
  case divI a o =>
    split at h
    · next hc =>
        obtain ⟨pr, hp1, hp2⟩ := exceptMap_inv h
        subst hp2
        exact (pyDiv_out o hWF hc.1 hc.2 hp1).1
    · cases h
  case rdivI q a =>
    split at h
    · next hc =>
        obtain ⟨pr, hp1, hp2⟩ := exceptMap_inv h
        subst hp2
        exact (pyRDiv_out hWF hc hp1).1
    · cases h
  case negI a =>
    split at h
    · obtain rfl := Except.ok.inj h
      next hc => exact (pyNeg_out hWF hc).1
    · cases h
  case powI a e =>
    split at h
    · next hc =>
        obtain ⟨pr, hp1, hp2⟩ := exceptMap_inv h
        subst hp2
        exact (powVV_out hWF hc hp1).1
    · cases h
  case sigmoidI a =>
    split at h
    · obtain rfl := Except.ok.inj h
      next hc => exact (sigmoidVV_out hWF hc).1
    · cases h
  case reluI a =>
    split at h
    · obtain rfl := Except.ok.inj h
      next hc => exact (reluVV_out hWF hc).1
    · cases h
  case backwardI a =>
    split at h
    · exact backward_WF hWF h
    · cases h

theorem WF_nil : WF ([] : GraphState) := by
  intro i hi
  cases hi

theorem exec_WF {sig : ℚ → ℚ} {p : List Instr} {g : GraphState}
    (h : value.exec sig p = Except.ok g) : WF g := by
  unfold value.exec at h
  have main : ∀ (l : List Instr) (g0 : GraphState), WF g0 →
      List.foldlM (value.execInstr sig) g0 l = Except.ok g → WF g := by
    intro l
    induction l with
    | nil =>
        intro g0 h0 hh
        obtain rfl := foldlM_ok_nil hh
        exact h0
    | cons x xs ih =>
        intro g0 h0 hh
        obtain ⟨g2, hx, hxs⟩ := foldlM_ok_cons hh
        exact ih g2 (execInstr_WF h0 hx) hxs
  exact main p [] WF_nil h

theorem childFirst_append_right {g : GraphState} :
    ∀ {L M : List Nat}, childFirst g (L ++ M) → childFirst g M := by
  intro L
  induction L with
  | nil => intro M h; exact h
  | cons a L ih => intro M h; exact ih h.2

theorem childFirst_closed {g : GraphState} :
    ∀ {r : List Nat}, childFirst g r → ∀ v ∈ r, ∀ p ∈ prevOf g v, p ∈ r := by
  intro r
  induction r with
  | nil => intro _ v hv; cases hv
  | cons a rest ih =>
      intro h v hv p hp
      rcases List.mem_cons.mp hv with rfl | hv2
      · exact List.mem_cons_of_mem _ (h.1 p hp)
      · exact List.mem_cons_of_mem _ (ih h.2 v hv2 p hp)

theorem childFirst_parents_tail {g : GraphState} {r q1 q2 : List Nat} {v : Nat}
    (hcf : childFirst g r) (hsplit : r = q1 ++ v :: q2) :
    ∀ p ∈ prevOf g v, p ∈ q2 := by
  subst hsplit
  exact (childFirst_append_right hcf).1

theorem visitFold_spec {g : GraphState} {fuel : Nat} {A : List Nat} {B : Nat}
    (hvs : ∀ v st, v < fuel → (∀ a ∈ A, v < a) → topoInv g st A →
      topoInv g (value.visit g fuel v st) A ∧
        (∃ n, (value.visit g fuel v st).topo = st.topo ++ n ∧ ∀ x ∈ n, x ≤ v) ∧
        v ∈ (value.visit g fuel v st).topo) :
    ∀ (ps : List Nat) (st : TopoSt),
      (∀ p ∈ ps, p < fuel ∧ p < B ∧ ∀ a ∈ A, p < a) → topoInv g st A →
      topoInv g (ps.foldl (fun s p => value.visit g fuel p s) st) A ∧
        (∃ n, (ps.foldl (fun s p => value.visit g fuel p s) st).topo = st.topo ++ n ∧
          ∀ x ∈ n, x < B) ∧
        ∀ p ∈ ps, p ∈ (ps.foldl (fun s p => value.visit g fuel p s) st).topo := by
  intro ps
  induction ps with
  | nil =>
      intro st _ hinv
      refine ⟨hinv, ⟨[], by simp, by simp⟩, ?_⟩
      intro p hp
      cases hp
  | cons p ps ih =>
      intro st hcond hinv
      have hp := hcond p (List.mem_cons_self p ps)
      obtain ⟨inv1, ⟨n1, hn1, hb1⟩, hmem1⟩ := hvs p st hp.1 hp.2.2 hinv
      have hcond2 : ∀ q ∈ ps, q < fuel ∧ q < B ∧ ∀ a ∈ A, q < a :=
        fun q hq => hcond q (List.mem_cons_of_mem _ hq)
      obtain ⟨inv2, ⟨n2, hn2, hb2⟩, hmem2⟩ := ih (value.visit g fuel p st) hcond2 inv1
      rw [List.foldl_cons]
      refine ⟨inv2, ⟨n1 ++ n2, ?_, ?_⟩, ?_⟩
      · rw [hn2, hn1, List.append_assoc]
      · intro x hx
        rcases List.mem_append.mp hx with hx | hx
        · exact Nat.lt_of_le_of_lt (hb1 x hx) hp.2.1
        · exact hb2 x hx
      · intro q hq
        rcases List.mem_cons.mp hq with rfl | hq2
        · rw [hn2]
          exact List.mem_append_left _ hmem1
        · exact hmem2 q hq2

theorem visit_spec {g : GraphState} (hWF : WF g) :
    ∀ (fuel v : Nat) (st : TopoSt) (A : List Nat),
      v < fuel → (∀ a ∈ A, v < a) → topoInv g st A →
      topoInv g (value.visit g fuel v st) A ∧
        (∃ n, (value.visit g fuel v st).topo = st.topo ++ n ∧ ∀ x ∈ n, x ≤ v) ∧
        v ∈ (value.visit g fuel v st).topo := by
  intro fuel
  induction fuel with
  | zero =>
      intro v st A hv
      exact absurd hv (Nat.not_lt_zero v)
  | succ fuel ih =>
      intro v st A hv hA hinv
      by_cases hvis : v ∈ st.visited
      · have hcalc : value.visit g (fuel + 1) v st = st := by
          simp [value.visit, hvis]
        rw [hcalc]
        refine ⟨hinv, ⟨[], by simp, by simp⟩, ?_⟩
        rcases (hinv.1 v).mp hvis with h | h
        · exact h
        · exact absurd (hA v h) (Nat.lt_irrefl v)
      · have hinv1 : topoInv g ⟨v :: st.visited, st.topo⟩ (v :: A) := by
          refine ⟨?_, hinv.2.1, ?_, hinv.2.2.2⟩
          · intro x
            have := hinv.1 x
            simp only [List.mem_cons] at *
            tauto
          · intro a ha
            rcases List.mem_cons.mp ha with rfl | ha2
            · intro hmem
              exact hvis ((hinv.1 a).mpr (Or.inl hmem))
            · exact hinv.2.2.1 a ha2
        have hcond : ∀ p ∈ prevOf g v, p < fuel ∧ p < v ∧ ∀ a ∈ v :: A, p < a := by
          intro p hp
          have hpv : p < v := WF_prev_lt hWF hp
          refine ⟨Nat.lt_of_lt_of_le hpv (Nat.lt_succ_iff.mp hv), hpv, ?_⟩
          intro a ha
          rcases List.mem_cons.mp ha with rfl | ha2
          · exact hpv
          · exact Nat.lt_trans hpv (hA a ha2)
        have hvs : ∀ w stw, w < fuel → (∀ a ∈ v :: A, w < a) → topoInv g stw (v :: A) →
            topoInv g (value.visit g fuel w stw) (v :: A) ∧
              (∃ n, (value.visit g fuel w stw).topo = stw.topo ++ n ∧ ∀ x ∈ n, x ≤ w) ∧
              w ∈ (value.visit g fuel w stw).topo :=
          fun w stw hw hAw hiw => ih w stw (v :: A) hw hAw hiw
        obtain ⟨inv2, ⟨n2, hn2, hb2⟩, hmem2⟩ :=
          visitFold_spec hvs (prevOf g v) ⟨v :: st.visited, st.topo⟩ hcond hinv1
        have hcalc : value.visit g (fuel + 1) v st =
            ⟨((prevOf g v).foldl (fun s p => value.visit g fuel p s)
                ⟨v :: st.visited, st.topo⟩).visited,
              ((prevOf g v).foldl (fun s p => value.visit g fuel p s)
                ⟨v :: st.visited, st.topo⟩).topo ++ [v]⟩ := by
          simp [value.visit, hvis]
        rw [hcalc]
        set st2 := (prevOf g v).foldl (fun s p => value.visit g fuel p s)
          ⟨v :: st.visited, st.topo⟩ with hst2
        have hvnot : v ∉ st2.topo := inv2.2.2.1 v (List.mem_cons_self v A)
        refine ⟨⟨?_, ?_, ?_, ?_⟩, ⟨n2 ++ [v], ?_, ?_⟩, ?_⟩
        · intro x
          have := inv2.1 x
          simp only [List.mem_append, List.mem_cons, List.mem_singleton] at *
          tauto
        · rw [List.nodup_append]
          refine ⟨inv2.2.1, List.nodup_singleton v, ?_⟩
          intro x hx hx2
          rw [List.mem_singleton] at hx2
          subst hx2
          exact hvnot hx
        · intro a ha hmem
          rcases List.mem_append.mp hmem with hm | hm
          · exact inv2.2.2.1 a (List.mem_cons_of_mem _ ha) hm
          · rw [List.mem_singleton] at hm
            subst hm
            exact absurd (hA a ha) (Nat.lt_irrefl a)
        · rw [List.reverse_append, List.reverse_singleton, List.singleton_append]
          refine ⟨?_, inv2.2.2.2⟩
          intro p hp
          rw [List.mem_reverse]
          exact hmem2 p hp
        · rw [hn2, List.append_assoc]
        · intro x hx
          rcases List.mem_append.mp hx with hm | hm
          · exact Nat.le_of_lt (hb2 x hm)
          · rw [List.mem_singleton] at hm
            subst hm
            exact Nat.le_refl x
        · exact List.mem_append_right _ (List.mem_singleton.mpr rfl)

theorem buildTopo_spec {g : GraphState} (hWF : WF g) (root : Nat) :
    (value.buildTopo g root).Nodup ∧
      childFirst g (value.buildTopo g root).reverse ∧
      root ∈ value.buildTopo g root ∧
      ∀ x ∈ value.buildTopo g root, x ≤ root := by
  have h0 : topoInv g ⟨[], []⟩ [] := by
    refine ⟨by simp, List.nodup_nil, by simp, trivial⟩
  obtain ⟨hinv, ⟨n, hn, hb⟩, hmem⟩ :=
    visit_spec hWF (root + 1) root ⟨[], []⟩ [] (Nat.lt_succ_self _) (by simp) h0
  unfold value.buildTopo
  refine ⟨hinv.2.1, hinv.2.2.2, hmem, ?_⟩
  intro x hx
  simp only [List.nil_append] at hn
  rw [hn] at hx
  exact hb x hx

theorem adjF_oob {g : GraphState} {root v : Nat} (h : g.length ≤ v) :
    ∀ fuel, adjF g root fuel v = if v = root then 1 else 0 := by
  intro fuel
  cases fuel with
  | zero => rfl
  | succ fuel =>
      simp only [adjF]
      have hemp : (Finset.range g.length).filter (fun c => v < c) = ∅ := by
        apply Finset.filter_eq_empty_iff.mpr
        intro c hc
        rw [Finset.mem_range] at hc
        omega
      rw [hemp, Finset.sum_empty, add_zero]

theorem adjF_congr {g : GraphState} {root : Nat} :
    ∀ f1 f2 v, g.length - v ≤ f1 → g.length - v ≤ f2 →
      adjF g root f1 v = adjF g root f2 v := by
  intro f1
  induction f1 with
  | zero =>
      intro f2 v h1 _
      have hv : g.length ≤ v := by omega
      rw [adjF_oob hv, adjF_oob hv]
  | succ f1 ih =>
      intro f2 v h1 h2
      rcases Nat.lt_or_ge v g.length with hv | hv
      · cases f2 with
        | zero => omega
        | succ f2 =>
            simp only [adjF]
            congr 1
            apply Finset.sum_congr rfl
            intro c hc
            simp only [Finset.mem_filter, Finset.mem_range] at hc
            congr 1
            exact ih f2 c (by omega) (by omega)
      · rw [adjF_oob hv, adjF_oob hv]

theorem adj_unfold (g : GraphState) (root v : Nat) :
    adj g root v = (if v = root then 1 else 0) +
      ∑ c ∈ (Finset.range g.length).filter (fun c => v < c),
        locDeriv g c v * adj g root c := by
  unfold adj
  rcases Nat.lt_or_ge v g.length with h | h
  · have h1 : g.length - v = (g.length - v - 1) + 1 := by omega
    rw [h1]
    simp only [adjF]
    congr 1
    apply Finset.sum_congr rfl
    intro c hc
    simp only [Finset.mem_filter, Finset.mem_range] at hc
    congr 1
    exact adjF_congr _ _ c (by omega) (by omega)
  · have hemp : (Finset.range g.length).filter (fun c => v < c) = ∅ := by
      apply Finset.filter_eq_empty_iff.mpr
      intro c hc
      rw [Finset.mem_range] at hc
      omega
    rw [hemp, Finset.sum_empty, add_zero, Nat.sub_eq_zero_of_le h]
    rfl

theorem locDeriv_ne_zero_mem {g : GraphState} {c x : Nat} (h : locDeriv g c x ≠ 0) :
    x ∈ closOps (closOf g c) := by
  unfold locDeriv at h
  cases hcl : closOf g c <;> rw [hcl] at h <;> simp only [locAux] at h <;>
    simp only [closOps]
  case noop => exact absurd rfl h
  case addc l r => split_ifs at h <;> simp_all
  case mulc l r => split_ifs at h <;> simp_all
  case powc a e => split_ifs at h <;> simp_all
  case sigc a => split_ifs at h <;> simp_all
  case reluc a => split_ifs at h <;> simp_all

theorem locDeriv_congr {g h : GraphState} (hs : sameShape g h) (c x : Nat) :
    locDeriv h c x = locDeriv g c x := by
  unfold locDeriv
  rw [(hs.2 c).2.2]
  cases closOf g c with
  | noop => rfl
  | addc l r => rfl
  | mulc l r => simp only [locAux]; rw [(hs.2 r).1, (hs.2 l).1]
  | powc a e => simp only [locAux]; rw [(hs.2 a).1]
  | sigc a => simp only [locAux]; rw [(hs.2 c).1]
  | reluc a => simp only [locAux]; rw [(hs.2 c).1]

theorem propagate_grad {h g1 : GraphState} {u : Nat} (hu : u < h.length)
    (hops : ∀ p ∈ closOps (closOf h u), p < u)
    (hnos : ∀ a, closOf h u ≠ BackClos.sigc a)
    (hok : value.propagate h u = Except.ok g1) :
    ∀ x, gradOf g1 x = gradOf h x + locDeriv h u x * gradOf h u := by
  unfold value.propagate at hok
  cases hcl : closOf h u <;> rw [hcl] at hok
  case noop =>
    obtain rfl := Except.ok.inj hok
    intro x
    unfold locDeriv
    rw [hcl]
    simp only [locAux]
    ring
  case addc l r =>
    have hl : l < u := hops l (by rw [hcl]; exact List.mem_cons_self _ _)
    have hr : r < u := hops r (by rw [hcl]; simp [closOps])
    have hlu : l < h.length := Nat.lt_trans hl hu
    have hru : r < h.length := Nat.lt_trans hr hu
    obtain rfl := Except.ok.inj hok
    have hG2 : gradOf (value.addGrad h l (gradOf h u)) u = gradOf h u := by
      rw [value.gradOf_addGrad _ hlu u, if_neg (Nat.ne_of_lt hl), add_zero]
    intro x
    rw [value.gradOf_addGrad _ (by rw [value.addGrad_length]; exact hru) x,
      value.gradOf_addGrad _ hlu x, hG2]
    unfold locDeriv
    rw [hcl]
    simp only [locAux]
    split_ifs <;> ring
  case mulc l r =>
    have hl : l < u := hops l (by rw [hcl]; exact List.mem_cons_self _ _)
    have hr : r < u := hops r (by rw [hcl]; simp [closOps])
    have hlu : l < h.length := Nat.lt_trans hl hu
    have hru : r < h.length := Nat.lt_trans hr hu
    obtain rfl := Except.ok.inj hok
    have hG2 : gradOf (value.addGrad h l (dataOf h r * gradOf h u)) u = gradOf h u := by
      rw [value.gradOf_addGrad _ hlu u, if_neg (Nat.ne_of_lt hl), add_zero]
    intro x
    rw [value.gradOf_addGrad _ (by rw [value.addGrad_length]; exact hru) x,
      value.gradOf_addGrad _ hlu x, hG2, value.dataOf_addGrad]
    unfold locDeriv
    rw [hcl]
    simp only [locAux]
    split_ifs <;> ring
  case powc a e =>
    have ha : a < u := hops a (by rw [hcl]; exact List.mem_singleton.mpr rfl)
    have hau : a < h.length := Nat.lt_trans ha hu
    obtain ⟨d, hd1, hd2⟩ := exceptMap_inv hok
    subst hd2
    obtain rfl := pyPowNum_ok hd1
    intro x
    rw [value.gradOf_addGrad _ hau x]
    unfold locDeriv
    rw [hcl]
    simp only [locAux]
    split_ifs <;> ring
  case sigc a => exact absurd hcl (hnos a)
  case reluc a =>
    have ha : a < u := hops a (by rw [hcl]; exact List.mem_singleton.mpr rfl)
    have hau : a < h.length := Nat.lt_trans ha hu
    obtain rfl := Except.ok.inj hok
    intro x
    rw [value.gradOf_addGrad _ hau x]
    unfold locDeriv
    rw [hcl]
    simp only [locAux]
    split_ifs <;> ring

theorem adjF_zero_of_not_mem {g : GraphState} {root : Nat} {r : List Nat} (hWF : WF g)
    (hroot : root ∈ r) (hclosed : ∀ v ∈ r, ∀ p ∈ prevOf g v, p ∈ r) :
    ∀ fuel c, c ∉ r → adjF g root fuel c = 0 := by
  intro fuel
  induction fuel with
  | zero =>
      intro c hc
      exact if_neg fun h => hc (by rw [h]; exact hroot)
  | succ fuel ih =>
      intro c hc
      simp only [adjF]
      rw [if_neg fun h => hc (by rw [h]; exact hroot), zero_add]
      apply Finset.sum_eq_zero
      intro d hd
      simp only [Finset.mem_filter, Finset.mem_range] at hd
      by_cases hld : locDeriv g d c = 0
      · rw [hld, zero_mul]
      · have hcp : c ∈ prevOf g d := WF_closOps_prev hWF (locDeriv_ne_zero_mem hld)
        have hdr : d ∉ r := fun hdm => hc (hclosed d hdm c hcp)
        rw [ih d hdr, mul_zero]

theorem adj_zero_of_not_mem {g : GraphState} {root : Nat} {r : List Nat} (hWF : WF g)
    (hroot : root ∈ r) (hclosed : ∀ v ∈ r, ∀ p ∈ prevOf g v, p ∈ r) {c : Nat}
    (hc : c ∉ r) : adj g root c = 0 :=
  adjF_zero_of_not_mem hWF hroot hclosed _ c hc

theorem contribSum_complete {g : GraphState} {root x : Nat} {Q : List Nat} (hWF : WF g)
    (hQnd : Q.Nodup) (hQlen : ∀ c ∈ Q, c < g.length)
    (hcomp : ∀ c, c < g.length → locDeriv g c x * adj g root c ≠ 0 → c ∈ Q) :
    contribSum g root Q x =
      ∑ c ∈ (Finset.range g.length).filter (fun c => x < c),
        locDeriv g c x * adj g root c := by
  have h1 : contribSum g root Q x = ∑ c ∈ Q.toFinset, locDeriv g c x * adj g root c := by
    unfold contribSum
    rw [List.sum_toFinset _ hQnd]
  have hsub : Q.toFinset ⊆ Finset.range g.length := by
    intro c hc
    rw [List.mem_toFinset] at hc
    exact Finset.mem_range.mpr (hQlen c hc)
  have h2 : ∑ c ∈ Q.toFinset, locDeriv g c x * adj g root c =
      ∑ c ∈ Finset.range g.length, locDeriv g c x * adj g root c := by
    apply Finset.sum_subset hsub
    intro c hc hc2
    rw [Finset.mem_range] at hc
    rw [List.mem_toFinset] at hc2
    by_contra hne
    exact hc2 (hcomp c hc hne)
  have h3 : ∑ c ∈ (Finset.range g.length).filter (fun c => x < c),
      locDeriv g c x * adj g root c =
      ∑ c ∈ Finset.range g.length, locDeriv g c x * adj g root c := by
    apply Finset.sum_filter_of_ne
    intro c _ hne
    have hld : locDeriv g c x ≠ 0 := fun h0 => hne (by rw [h0, zero_mul])
    exact WF_closOps_lt hWF (locDeriv_ne_zero_mem hld)
  rw [h1, h2, ← h3]

theorem backward_fold {g : GraphState} {root : Nat} {r : List Nat} (hWF : WF g)
    (hroot : root ∈ r) (hnd : r.Nodup) (hcf : childFirst g r)
    (hlen : ∀ v ∈ r, v < g.length) (hnos : noSigmoid g) :
    ∀ (R Q : List Nat) (gcur gfin : GraphState),
      r = Q ++ R →
      sameShape g gcur →
      (∀ x, gradOf gcur x = (if x = root then 1 else 0) + contribSum g root Q x) →
      List.foldlM value.propagate gcur R = Except.ok gfin →
      ∀ x, gradOf gfin x = (if x = root then 1 else 0) + contribSum g root (Q ++ R) x := by
  have hclosed : ∀ v ∈ r, ∀ p ∈ prevOf g v, p ∈ r := childFirst_closed hcf
  intro R
  induction R with
  | nil =>
      intro Q gcur gfin hsplit hshape hgrad hfold x
      obtain rfl := foldlM_ok_nil hfold
      rw [List.append_nil]
      exact hgrad x
  | cons u R ih =>
      intro Q gcur gfin hsplit hshape hgrad hfold x
      obtain ⟨gmid, hstep, hrest⟩ := foldlM_ok_cons hfold
      have humem : u ∈ r := by
        rw [hsplit]
        exact List.mem_append_right _ (List.mem_cons_self _ _)
      have hu : u < g.length := hlen u humem
      have hulen2 : u < gcur.length := by
        rw [hshape.1]
        exact hu
      have key : ∀ c, c < g.length → locDeriv g c u * adj g root c ≠ 0 → c ∈ Q := by
        intro c hc hne
        have hld : locDeriv g c u ≠ 0 := fun h0 => hne (by rw [h0, zero_mul])
        have hup : u ∈ prevOf g c := WF_closOps_prev hWF (locDeriv_ne_zero_mem hld)
        have hadj : adj g root c ≠ 0 := fun h0 => hne (by rw [h0, mul_zero])
        have hcr : c ∈ r := by
          by_contra hcr
          exact hadj (adj_zero_of_not_mem hWF hroot hclosed hcr)
        rw [hsplit] at hcr
        rcases List.mem_append.mp hcr with hQ | hUR
        · exact hQ
        · exfalso
          rcases List.mem_cons.mp hUR with rfl | hR
          · exact absurd (WF_prev_lt hWF hup) (Nat.lt_irrefl c)
          · obtain ⟨s, t, hst⟩ := List.append_of_mem hR
            have hcfr : childFirst g ((u :: s) ++ c :: t) := by
              have : r = Q ++ ((u :: s) ++ c :: t) := by
                rw [hsplit, hst]
                simp
              rw [this] at hcf
              exact childFirst_append_right hcf
            have hut : u ∈ t := (childFirst_append_right hcfr).1 u hup
            have hndu : u ∉ R := by
              have : (u :: R).Nodup := (hsplit ▸ hnd).of_append_right
              exact (List.nodup_cons.mp this).1
            apply hndu
            rw [hst]
            exact List.mem_append_right _ (List.mem_cons_of_mem _ hut)
      have hQnd : Q.Nodup := (hsplit ▸ hnd).of_append_left
      have hQlen : ∀ c ∈ Q, c < g.length :=
        fun c hc => hlen c (hsplit ▸ List.mem_append_left _ hc)
      have hgu : gradOf gcur u = adj g root u := by
        rw [hgrad u, contribSum_complete hWF hQnd hQlen key]
        exact (adj_unfold g root u).symm
      have hops : ∀ p ∈ closOps (closOf gcur u), p < u := by
        rw [(hshape.2 u).2.2]
        exact fun p hp => WF_closOps_lt hWF hp
      have hnosu : ∀ a, closOf gcur u ≠ BackClos.sigc a := by
        rw [(hshape.2 u).2.2]
        intro a hcl
        have := hnos u hu
        rw [hcl] at this
        simp [isSigmoid] at this
      have hstepgrad := propagate_grad hulen2 hops hnosu hstep
      have hshape2 : sameShape g gmid := sameShape_trans hshape (propagate_shape hstep)
      have hgrad2 : ∀ y, gradOf gmid y =
          (if y = root then 1 else 0) + contribSum g root (Q ++ [u]) y := by
        intro y
        rw [hstepgrad y, hgrad y, locDeriv_congr hshape u y, hgu]
        unfold contribSum
        rw [List.map_append, List.sum_append]
        simp only [List.map_cons, List.map_nil, List.sum_cons, List.sum_nil]
        ring
      have hsplit2 : r = (Q ++ [u]) ++ R := by
        rw [hsplit, List.append_assoc, List.singleton_append]
      have hfin := ih (Q ++ [u]) gmid gfin hsplit2 hshape2 hgrad2 hrest x
      rw [hfin, List.append_assoc, List.singleton_append]

/-- Core correctness of `Value.backward` on a sigmoid-free fresh graph:
every gradient ends at the adjoint of its node, the sum over all paths to
the root of the products of local derivatives. -/
theorem backward_adj {g g1 : GraphState} {root : Nat} (hWF : WF g)
    (hroot : root < g.length) (hzero : zeroGrads g) (hnos : noSigmoid g)
    (hbk : value.backward g root = Except.ok g1) :
    ∀ x, gradOf g1 x = adj g root x := by
  obtain ⟨hnd, hcf, hrm, hle⟩ := buildTopo_spec hWF root
  have hndr : (value.buildTopo g root).reverse.Nodup := List.nodup_reverse.mpr hnd
  have hrmr : root ∈ (value.buildTopo g root).reverse := List.mem_reverse.mpr hrm
  have hlenr : ∀ v ∈ (value.buildTopo g root).reverse, v < g.length := by
    intro v hv
    exact Nat.lt_of_le_of_lt (hle v (List.mem_reverse.mp hv)) hroot
  have hclosed := childFirst_closed hcf
  unfold value.backward at hbk
  have hbase : ∀ x, gradOf (value.setGrad g root 1) x =
      (if x = root then 1 else 0) + contribSum g root [] x := by
    intro x
    rw [value.gradOf_setGrad _ hroot x]
    rcases eq_or_ne x root with rfl | hne
    · simp [contribSum]
    · rw [if_neg fun h => hne h.symm, if_neg hne]
      rcases Nat.lt_or_ge x g.length with hx | hx
      · rw [hzero x hx]
        simp [contribSum]
      · rw [gradOf_oob hx]
        simp [contribSum]
  have hfold := backward_fold hWF hrmr hndr hcf hlenr hnos
    (value.buildTopo g root).reverse [] (value.setGrad g root 1) g1 rfl
    (sameShape_setGrad g root 1) hbase hbk
  intro x
  have hx := hfold x
  rw [List.nil_append] at hx
  rw [hx, adj_unfold g root x]
  congr 1
  apply contribSum_complete hWF hndr hlenr
  intro c hc hne
  have hadj : adj g root c ≠ 0 := fun h0 => hne (by rw [h0, mul_zero])
  by_contra hcr
  exact hadj (adj_zero_of_not_mem hWF hrmr hclosed hcr)

/-! ## Branch equations of `propagate` -/

theorem propagate_noop {g : GraphState} {i : Nat} (hcl : closOf g i = BackClos.noop) :
    value.propagate g i = Except.ok g := by
  unfold value.propagate
  rw [hcl]

theorem propagate_addc {g : GraphState} {i l r : Nat}
    (hcl : closOf g i = BackClos.addc l r) :
    value.propagate g i = Except.ok
      (value.addGrad (value.addGrad g l (gradOf g i)) r
        (gradOf (value.addGrad g l (gradOf g i)) i)) := by
  unfold value.propagate
  rw [hcl]

theorem propagate_mulc {g : GraphState} {i l r : Nat}
    (hcl : closOf g i = BackClos.mulc l r) :
    value.propagate g i = Except.ok
      (value.addGrad (value.addGrad g l (dataOf g r * gradOf g i)) r
        (dataOf (value.addGrad g l (dataOf g r * gradOf g i)) l *
          gradOf (value.addGrad g l (dataOf g r * gradOf g i)) i)) := by
  unfold value.propagate
  rw [hcl]

theorem propagate_powc {g : GraphState} {i a : Nat} {e : Int}
    (hcl : closOf g i = BackClos.powc a e) :
    value.propagate g i = (pyPowNum (dataOf g a) (e - 1)).map fun p =>
      value.addGrad g a ((e : ℚ) * p * gradOf g i) := by
  unfold value.propagate
  rw [hcl]

theorem propagate_sigc {g : GraphState} {i a : Nat}
    (hcl : closOf g i = BackClos.sigc a) :
    value.propagate g i = Except.ok
      (value.setGrad g a (dataOf g i * (1 - dataOf g i) * gradOf g i)) := by
  unfold value.propagate
  rw [hcl]

theorem propagate_reluc {g : GraphState} {i a : Nat}
    (hcl : closOf g i = BackClos.reluc a) :
    value.propagate g i = Except.ok
      (value.addGrad g a ((if 0 < dataOf g i then 1 else 0) * gradOf g i)) := by
  unfold value.propagate
  rw [hcl]

/-! ## The claims -/

/-- C1: for leaf nodes `x`, `w`, `b` and `y = x * w + b`, after
`y.backward()` the gradient of `x` equals the value of `w`, the gradient
of `w` equals the value of `x`, and the gradient of `b` equals 1.0, at
the values fixed at construction time. -/
theorem c1_chain_rule (sig : ℚ → ℚ) (vx vw vb : ℚ) :
    (value.exec sig (c1prog vx vw vb)).map
        (fun g => (gradOf g 0, gradOf g 1, gradOf g 2)) =
      Except.ok (vw, vx, 1) := by
  simp [c1prog, value.exec, value.execInstr, value.leaf, value.mkNode, value.pyAdd,
    value.pyMul, value.coe0, value.addVV, value.mulVV, value.backward, value.buildTopo,
    value.visit, value.propagate, value.setGrad, value.addGrad, gradOf, dataOf, prevOf,
    closOf, pairSet, operandOk, List.foldlM, Except.map, Except.bind, bind, pure,
    Except.pure, List.getD, List.set]

/-- C4 counterexample: on `y = x * w + b` at `x=2, w=3, b=5`, the first
backward pass leaves `x.grad = 3` and the root at 1; the second pass
leaves `x.grad = 9 = 3 * 3` (not twice 3) and the root still at 1 (not
twice 1), so a second `backward()` does not double every gradient. -/
theorem c4_double_backward_cex :
    gradOf c4g1 0 = 3 ∧ gradOf c4g2 0 = 9 ∧
      gradOf c4g2 0 ≠ 2 * gradOf c4g1 0 ∧
      gradOf c4g1 4 = 1 ∧ gradOf c4g2 4 ≠ 2 * gradOf c4g1 4 := by
  norm_num [c4g1, c4g2, c4prog, c1prog, ofOk, value.exec, value.execInstr, value.leaf,
    value.mkNode, value.pyAdd, value.pyMul, value.coe0, value.addVV, value.mulVV,
    value.backward, value.buildTopo, value.visit, value.propagate, value.setGrad,
    value.addGrad, gradOf, dataOf, prevOf, closOf, pairSet, operandOk, List.foldlM,
    Except.map, Except.bind, bind, pure, Except.pure, List.getD, List.set, sigModel]

/-- C4 amended: calling `backward()` twice on the same root without
zeroing gradients accumulates on top of the first pass instead of
resetting, but does not double every gradient: on `y = x * w + b` the
root's gradient stays 1.0, the gradients of the direct parents `x * w`
and `b` double to 2.0, and the leaf gradients (two edges away) end at
three times their first-pass values `w.value` and `x.value`. -/
theorem c4_double_backward_accumulates (sig : ℚ → ℚ) (vx vw vb : ℚ) :
    (value.exec sig (c4prog vx vw vb)).map gradList =
      Except.ok [3 * vw, 3 * vx, 2, 2, 1] := by
  simp [c4prog, c1prog, gradList, value.exec, value.execInstr, value.leaf, value.mkNode,
    value.pyAdd, value.pyMul, value.coe0, value.addVV, value.mulVV, value.backward,
    value.buildTopo, value.visit, value.propagate, value.setGrad, value.addGrad, gradOf,
    dataOf, prevOf, closOf, pairSet, operandOk, List.foldlM, Except.map, Except.bind,
    bind, pure, Except.pure, List.getD, List.set]
  repeat' constructor
  all_goals ring

/-- C10: using the same node as both operands (`a * a`, `a + a`) collapses
the parent set to one element, yet the closure still pushes both operand
contributions: after backward, `a.grad = 2 * a.value` for the product and
`a.grad = 2.0` for the sum. -/
theorem c10_self_operand (sig : ℚ → ℚ) (va : ℚ) :
    (value.exec sig [Instr.leafI va none, Instr.mulI 0 (Operand.node 0),
        Instr.backwardI 1]).map (fun g => (prevOf g 1, gradOf g 0)) =
      Except.ok ([0], 2 * va) ∧
    (value.exec sig [Instr.leafI va none, Instr.addI 0 (Operand.node 0),
        Instr.backwardI 1]).map (fun g => (prevOf g 1, gradOf g 0)) =
      Except.ok ([0], 2) := by
  constructor <;>
    (simp [value.exec, value.execInstr, value.leaf, value.mkNode, value.pyAdd,
      value.pyMul, value.coe0, value.addVV, value.mulVV, value.backward, value.buildTopo,
      value.visit, value.propagate, value.setGrad, value.addGrad, gradOf, dataOf, prevOf,
      closOf, pairSet, operandOk, List.foldlM, Except.map, Except.bind, bind, pure,
      Except.pure, List.getD, List.set]) <;>
    ring

theorem gradOf_setGrad_self {g : GraphState} {i : Nat} (q : ℚ) (h : i < g.length) :
    gradOf (value.setGrad g i q) i = q := by
  rw [value.gradOf_setGrad q h i, if_pos rfl]

theorem gradOf_setGrad_other {g : GraphState} {i j : Nat} (q : ℚ) (h : i ≠ j) :
    gradOf (value.setGrad g i q) j = gradOf g j := by
  rcases Nat.lt_or_ge i g.length with hl | hl
  · rw [value.gradOf_setGrad q hl j, if_neg h]
  · rw [value.setGrad_oob q hl]

theorem gradOf_addGrad_self {g : GraphState} {i : Nat} (q : ℚ) (h : i < g.length) :
    gradOf (value.addGrad g i q) i = gradOf g i + q := by
  rw [value.gradOf_addGrad q h i, if_pos rfl]

theorem gradOf_addGrad_other {g : GraphState} {i j : Nat} (q : ℚ) (h : i ≠ j) :
    gradOf (value.addGrad g i q) j = gradOf g j := by
  rcases Nat.lt_or_ge i g.length with hl | hl
  · rw [value.gradOf_addGrad q hl j, if_neg h, add_zero]
  · unfold value.addGrad
    rw [value.setGrad_oob _ hl]

/-- C2: for every graph constructible via the public operators, the
discovery sequence built by `backward()` lists each node exactly once (a
diamond-shared node is not repeated) and places every node with parents
strictly after each of its parents. -/
theorem c2_topo_order (sig : ℚ → ℚ) (p : List Instr) (g : GraphState)
    (hex : value.exec sig p = Except.ok g) (root : Nat) :
    (value.buildTopo g root).Nodup ∧
      ∀ v ∈ value.buildTopo g root, ∀ q ∈ prevOf g v,
        ∃ l1 l2, value.buildTopo g root = l1 ++ v :: l2 ∧ q ∈ l1 := by
  have hWF := exec_WF hex
  obtain ⟨hnd, hcf, _, _⟩ := buildTopo_spec hWF root
  refine ⟨hnd, ?_⟩
  intro v hv q hq
  have hvr : v ∈ (value.buildTopo g root).reverse := List.mem_reverse.mpr hv
  obtain ⟨q1, q2, hsplit⟩ := List.append_of_mem hvr
  have hq2 : q ∈ q2 := childFirst_parents_tail hcf hsplit q hq
  refine ⟨q2.reverse, q1.reverse, ?_, List.mem_reverse.mpr hq2⟩
  have hrr : value.buildTopo g root = (q1 ++ v :: q2).reverse := by
    rw [← hsplit, List.reverse_reverse]
  rw [hrr]
  simp

/-- C2 witness: the diamond graph `y = (s + 1) + (s * 3)` with `s` shared,
discovery sequence from the root node 5. -/
theorem c2_topo_order_witness :
    (value.buildTopo c2g 5).Nodup ∧
      ∀ v ∈ value.buildTopo c2g 5, ∀ q ∈ prevOf c2g v,
        ∃ l1 l2, value.buildTopo c2g 5 = l1 ++ v :: l2 ∧ q ∈ l1 :=
  c2_topo_order sigModel c2prog c2g rfl 5

/-- C3: on any sigmoid-free graph built by the public operators with all
gradients still zero, after `backward()` on a root every node's gradient
equals its adjoint: the sum over all paths from the node up to the root of
the products of the local derivatives along each path (`adj`), so a node
feeding the root through several children receives the sum of the
per-path contributions, not the contribution of one path. -/
theorem c3_diamond_path_sum (sig : ℚ → ℚ) (p : List Instr) (g g1 : GraphState)
    (root : Nat) (hex : value.exec sig p = Except.ok g) (hroot : root < g.length)
    (hzero : zeroGrads g) (hnos : noSigmoid g)
    (hbk : value.backward g root = Except.ok g1) :
    ∀ v, gradOf g1 v = adj g root v :=
  backward_adj (exec_WF hex) hroot hzero hnos hbk

/-- C3 witness: the diamond `y = (s + 1) + (s * 3)` at `s = 2`; the shared
leaf's gradient equals its adjoint (1 via the addition path plus 3 via the
multiplication path). -/
theorem c3_diamond_path_sum_witness :
    value.backward c2g 5 = Except.ok c3g1 ∧ gradOf c3g1 0 = adj c2g 5 0 :=
  ⟨rfl, c3_diamond_path_sum sigModel c2prog c2g c3g1 5 rfl (by decide) (by decide)
    (by decide) rfl 0⟩

/-- C5: the sigmoid propagate rule overwrites the parent's gradient with
`c.value * (1 - c.value) * c.gradient` — the parent's prior gradient `q`
does not appear in the result — while the add, multiply, power and relu
rules accumulate their contribution on top of the prior `q`. -/
theorem c5_sigmoid_overwrites (g : GraphState) (i a j l r k m n t b u2 d : Nat)
    (e : Int) (pv : ℚ)
    (hsig : closOf g i = BackClos.sigc a) (hai : a ≠ i) (hal : a < g.length)
    (hadd : closOf g j = BackClos.addc l r) (hlj : l ≠ j) (hlr : l ≠ r)
    (hll : l < g.length)
    (hmul : closOf g k = BackClos.mulc m n) (hmk : m ≠ k) (hmn : m ≠ n)
    (hml : m < g.length)
    (hpow : closOf g t = BackClos.powc b e) (hbt : b ≠ t) (hbl : b < g.length)
    (hpv : pyPowNum (dataOf g b) (e - 1) = Except.ok pv)
    (hrel : closOf g u2 = BackClos.reluc d) (hdu : d ≠ u2) (hdl : d < g.length) :
    ∀ q : ℚ,
      ((value.propagate (value.setGrad g a q) i).map fun h => gradOf h a) =
          Except.ok (dataOf g i * (1 - dataOf g i) * gradOf g i) ∧
      ((value.propagate (value.setGrad g l q) j).map fun h => gradOf h l) =
          Except.ok (q + gradOf g j) ∧
      ((value.propagate (value.setGrad g m q) k).map fun h => gradOf h m) =
          Except.ok (q + dataOf g n * gradOf g k) ∧
      ((value.propagate (value.setGrad g b q) t).map fun h => gradOf h b) =
          Except.ok (q + (e : ℚ) * pv * gradOf g t) ∧
      ((value.propagate (value.setGrad g d q) u2).map fun h => gradOf h d) =
          Except.ok (q + (if 0 < dataOf g u2 then 1 else 0) * gradOf g u2) := by
  intro q
  refine ⟨?_, ?_, ?_, ?_, ?_⟩
  · have hcl : closOf (value.setGrad g a q) i = BackClos.sigc a := by
      rw [value.closOf_setGrad]
      exact hsig
    rw [propagate_sigc hcl]
    simp only [Except.map]
    rw [gradOf_setGrad_self _ (by rw [value.setGrad_length]; exact hal),
      value.dataOf_setGrad, gradOf_setGrad_other q hai]
  · have hcl : closOf (value.setGrad g l q) j = BackClos.addc l r := by
      rw [value.closOf_setGrad]
      exact hadd
    rw [propagate_addc hcl]
    simp only [Except.map]
    rw [gradOf_addGrad_other _ (Ne.symm hlr),
      gradOf_addGrad_self _ (by rw [value.setGrad_length]; exact hll),
      gradOf_setGrad_self q hll, gradOf_setGrad_other q hlj]
  · have hcl : closOf (value.setGrad g m q) k = BackClos.mulc m n := by
      rw [value.closOf_setGrad]
      exact hmul
    rw [propagate_mulc hcl]
    simp only [Except.map]
    rw [gradOf_addGrad_other _ (Ne.symm hmn),
      gradOf_addGrad_self _ (by rw [value.setGrad_length]; exact hml),
      gradOf_setGrad_self q hml, value.dataOf_setGrad, gradOf_setGrad_other q hmk]
  · have hcl : closOf (value.setGrad g b q) t = BackClos.powc b e := by
      rw [value.closOf_setGrad]
      exact hpow
    rw [propagate_powc hcl, value.dataOf_setGrad, hpv]
    simp only [Except.map]
    rw [gradOf_addGrad_self _ (by rw [value.setGrad_length]; exact hbl),
      gradOf_setGrad_self q hbl, gradOf_setGrad_other q hbt]
  · have hcl : closOf (value.setGrad g d q) u2 = BackClos.reluc d := by
      rw [value.closOf_setGrad]
      exact hrel
    rw [propagate_reluc hcl]
    simp only [Except.map]
    rw [gradOf_addGrad_self _ (by rw [value.setGrad_length]; exact hdl),
      gradOf_setGrad_self q hdl, value.dataOf_setGrad, gradOf_setGrad_other q hdu]

/-- C5 witness: a state with one node of each operation kind over leaf 0,
prior parent gradient 5. -/
theorem c5_sigmoid_overwrites_witness :
    ((value.propagate (value.setGrad c5g 0 5) 1).map fun h => gradOf h 0) =
        Except.ok (dataOf c5g 1 * (1 - dataOf c5g 1) * gradOf c5g 1) ∧
      ((value.propagate (value.setGrad c5g 0 5) 3).map fun h => gradOf h 0) =
        Except.ok (5 + gradOf c5g 3) ∧
      ((value.propagate (value.setGrad c5g 0 5) 5).map fun h => gradOf h 0) =
        Except.ok (5 + dataOf c5g 4 * gradOf c5g 5) ∧
      ((value.propagate (value.setGrad c5g 0 5) 6).map fun h => gradOf h 0) =
        Except.ok (5 + ((2 : ℤ) : ℚ) * 1 * gradOf c5g 6) ∧
      ((value.propagate (value.setGrad c5g 0 5) 7).map fun h => gradOf h 0) =
        Except.ok (5 + (if 0 < dataOf c5g 7 then 1 else 0) * gradOf c5g 7) :=
  c5_sigmoid_overwrites c5g 1 0 3 0 2 5 0 4 6 0 7 0 2 1
    (by decide) (by decide) (by decide) (by decide) (by decide) (by decide) (by decide)
    (by decide) (by decide) (by decide) (by decide) (by decide) (by decide) (by decide)
    (by norm_num [c5g, c5prog, ofOk, sigModel, value.exec, value.execInstr, value.leaf,
      value.mkNode, value.pyAdd, value.pyMul, value.coe0, value.addVV, value.mulVV,
      value.powVV, value.sigmoidVV, value.reluVV, pyPowNum, dataOf, operandOk,
      List.foldlM, Except.map, Except.bind, bind, pure, Except.pure, List.getD])
    (by decide) (by decide) (by decide) 5

/-- C6 counterexample: building `Value(0.0) ** 0` succeeds (`0.0 ** 0` is
`1.0`), but `backward()` must evaluate `0.0 ** -1` for the power-rule
derivative, and the run raises `ZeroDivisionError` instead of propagating
an IEEE-754 infinity or NaN. -/
theorem c6_pow_backward_raises_cex :
    value.exec sigModel c6prog =
      Except.error "ZeroDivisionError: 0.0 cannot be raised to a negative power" := by
  rfl

/-- C6 amended: when the power-rule derivative is evaluated at
`a.value == 0` with `exponent - 1` negative, the backward step raises
`ZeroDivisionError` (Python float power semantics); the engine fails
rather than propagating an IEEE-754 infinity or NaN. -/
theorem c6_pow_backward_raises (g : GraphState) (i a : Nat) (e : Int)
    (hcl : closOf g i = BackClos.powc a e) (hz : dataOf g a = 0) (he : e < 1) :
    value.propagate g i =
      Except.error "ZeroDivisionError: 0.0 cannot be raised to a negative power" := by
  rw [propagate_powc hcl, hz]
  unfold pyPowNum
  rw [if_pos ⟨rfl, by omega⟩]
  rfl

/-- C6 witness: the closure of the `Value(0.0) ** 0` node. -/
theorem c6_pow_backward_raises_witness :
    value.propagate c6g 1 =
      Except.error "ZeroDivisionError: 0.0 cannot be raised to a negative power" :=
  c6_pow_backward_raises c6g 1 0 0 (by decide) (by decide) (by decide)

/-- C7 counterexample: with a bare number second operand the code does not
build `add(a, negate(b))` or `multiply(a, power(b, -1))`: `a - 3` negates
the number itself and builds `add(a, leaf(-3))` (no multiply node), and
`a / 2` reciprocates the number and builds `multiply(a, leaf(1/2))` (no
power node). -/
theorem c7_number_operand_cex :
    value.pySub c7g 0 (Operand.num 3) ≠ specSubtract c7g 0 (Operand.num 3) ∧
      value.pyDiv c7g 0 (Operand.num 2) ≠ specDivide c7g 0 (Operand.num 2) := by
  constructor
  · decide
  · norm_num [value.pyDiv, specDivide, value.powVV, value.pyMul, value.coe0, value.leaf,
      value.mkNode, value.mulVV, pyPowNum, c7g, dataOf, pairSet, Except.map, List.getD]

/-- C7 amended: for node operands, `subtract(a, b)` builds exactly
`add(a, negate(b))` with `negate(b) = multiply(b, -1)`, and
`divide(a, b)` builds exactly `multiply(a, power(b, -1))`.  A bare number
second operand is not coerced first: Python negates or reciprocates the
number itself, so `a - q` builds `add(a, leaf(-q))` and `a / q` builds
`multiply(a, leaf(1/q))` (raising `ZeroDivisionError` for `q = 0`). -/
theorem c7_sub_div_structure (g : GraphState) (a b : Nat) (q : ℚ) :
    value.pySub g a (Operand.node b) = specSubtract g a (Operand.node b) ∧
      value.pyDiv g a (Operand.node b) = specDivide g a (Operand.node b) ∧
      value.pySub g a (Operand.num q) =
        value.addVV (value.leaf g (-q) none).1 a (value.leaf g (-q) none).2 ∧
      (q ≠ 0 → value.pyDiv g a (Operand.num q) =
        Except.ok (value.mulVV (value.leaf g q⁻¹ none).1 a (value.leaf g q⁻¹ none).2)) := by
  refine ⟨rfl, rfl, rfl, ?_⟩
  intro hq
  show (pyPowNum q (-1)).map (fun r => value.pyMul g a (Operand.num r)) = _
  unfold pyPowNum
  rw [if_neg fun hc => hq hc.1]
  simp only [Except.map]
  rw [zpow_neg_one q]
  rfl

/-- C9: `Visualize.draw` accepts a layout direction and raises exactly
when it is outside `{LR, TB}`; inside the set it returns a graph without
error. -/
theorem c9_draw_rankdir (g : GraphState) (root : Nat) (fmt rankdir : String) :
    (∃ d, visualize.draw g root fmt rankdir = Except.ok d) ↔
      rankdir = "LR" ∨ rankdir = "TB" := by
  unfold visualize.draw
  split
  · next h => exact ⟨fun _ => h, fun _ => ⟨_, rfl⟩⟩
  · next h =>
      constructor
      · rintro ⟨d, hd⟩
        cases hd
      · intro h2
        exact absurd h2 h

/-! ## The two engine classes compute identically -/

theorem engines_setGrad_eq : @node.setGrad = @value.setGrad := rfl

theorem engines_addGrad_eq : @node.addGrad = @value.addGrad := by
  funext g i q
  unfold node.addGrad value.addGrad
  rw [engines_setGrad_eq]

theorem engines_propagate_eq : @node.propagate = @value.propagate := by
  funext g i
  unfold node.propagate value.propagate
  cases closOf g i <;> simp only [engines_setGrad_eq, engines_addGrad_eq]

theorem engines_visit_eq : @node.visit = @value.visit := by
  funext g fuel
  induction fuel with
  | zero => funext v st; rfl
  | succ fuel ih =>
      funext v st
      by_cases hv : v ∈ st.visited
      · simp only [node.visit, value.visit, if_pos hv]
      · simp only [node.visit, value.visit, if_neg hv]
        rw [ih]

theorem engines_buildTopo_eq : @node.buildTopo = @value.buildTopo := by
  funext g root
  unfold node.buildTopo value.buildTopo
  rw [engines_visit_eq]

theorem engines_backward_eq : @node.backward = @value.backward := by
  funext g root
  unfold node.backward value.backward
  rw [engines_buildTopo_eq, engines_propagate_eq, engines_setGrad_eq]

theorem engines_leaf_eq : @node.leaf = @value.leaf := rfl

theorem engines_addVV_eq : @node.addVV = @value.addVV := rfl

theorem engines_mulVV_eq : @node.mulVV = @value.mulVV := rfl

theorem engines_powVV_eq : @node.powVV = @value.powVV := rfl

theorem engines_sigmoidVV_eq : @node.sigmoidVV = @value.sigmoidVV := rfl

theorem engines_reluVV_eq : @node.reluVV = @value.reluVV := rfl

theorem engines_coe0_eq : @node.coe0 = @value.coe0 := by
  funext g o
  cases o <;> rfl

theorem engines_pyAdd_eq : @node.pyAdd = @value.pyAdd := by
  funext g a o
  unfold node.pyAdd value.pyAdd
  rw [engines_coe0_eq, engines_addVV_eq]

theorem engines_pyMul_eq : @node.pyMul = @value.pyMul := by
  funext g a o
  unfold node.pyMul value.pyMul
  rw [engines_coe0_eq, engines_mulVV_eq]

theorem engines_pyNeg_eq : @node.pyNeg = @value.pyNeg := by
  funext g a
  unfold node.pyNeg value.pyNeg
  rw [engines_pyMul_eq]

theorem engines_pySub_eq : @node.pySub = @value.pySub := by
  funext g a o
  cases o <;> simp only [node.pySub, value.pySub, engines_pyNeg_eq, engines_pyAdd_eq]

theorem engines_pyRSub_eq : @node.pyRSub = @value.pyRSub := by
  funext g q a
  unfold node.pyRSub value.pyRSub
  rw [engines_pyNeg_eq, engines_pyAdd_eq]

theorem engines_pyDiv_eq : @node.pyDiv = @value.pyDiv := by
  funext g a o
  cases o <;>
    simp only [node.pyDiv, value.pyDiv, engines_powVV_eq, engines_mulVV_eq,
      engines_pyMul_eq]

theorem engines_pyRDiv_eq : @node.pyRDiv = @value.pyRDiv := by
  funext g q a
  unfold node.pyRDiv value.pyRDiv
  rw [engines_powVV_eq, engines_pyMul_eq]

theorem engines_execInstr_eq : @node.execInstr = @value.execInstr := by
  funext sig g ins
  cases ins <;>
    simp only [node.execInstr, value.execInstr, engines_leaf_eq, engines_pyAdd_eq,
      engines_pyMul_eq, engines_pyNeg_eq, engines_pySub_eq, engines_pyRSub_eq,
      engines_pyDiv_eq, engines_pyRDiv_eq, engines_powVV_eq, engines_sigmoidVV_eq,
      engines_reluVV_eq, engines_backward_eq]

/-- C8: the two engine classes (`Node` in engine/node.py and `Value` in
engine/value.py) are behaviorally identical: every sequence of
construction, operator and backward calls produces the same arena — the
same values, parent structures, operation tags and gradients. -/
theorem c8_engines_identical : @node.exec = @value.exec := by
  funext sig p
  unfold node.exec value.exec
  rw [engines_execInstr_eq]
